import Mathlib

/-!
Shallow embedding of the grailbio/recordio C++ library (legacy v1 writer and
reader, packed-item lists, varint codec, transformer registry lookup, header
decoding, and the v2 chunk reader), together with theorems settling the
specification claims.  Bytes are modelled as `Nat` (values below 256), byte
strings as `List Nat`, and machine-integer truncation is written explicitly
with `% 2^w`.
-/

set_option maxRecDepth 100000

namespace Recordio

/-- Error state of an `internal::ErrorReporter` (internal.h): `none` means no
error has been recorded, `some msg` is the first recorded error. -/
abbrev ErrSt := Option String

/-- Mirror of `ErrorReporter::Set` (internal.h): only the first non-empty
error is kept. -/
def esSet (e : ErrSt) (msg : String) : ErrSt :=
  match e with
  | none => some msg
  | some m => some m

/-- Little-endian encoding of the low 32 bits of `v`, as written by
`WriteLEUint32` (writer.cc). -/
def leU32 (v : Nat) : List Nat :=
  [v % 256, v / 256 % 256, v / 256 ^ 2 % 256, v / 256 ^ 3 % 256]

/-- Little-endian encoding of the low 64 bits of `v`, as written by
`WriteLEUint64` (writer.cc). -/
def leU64 (v : Nat) : List Nat :=
  [v % 256, v / 256 % 256, v / 256 ^ 2 % 256, v / 256 ^ 3 % 256,
   v / 256 ^ 4 % 256, v / 256 ^ 5 % 256, v / 256 ^ 6 % 256, v / 256 ^ 7 % 256]

/-- Value of the little-endian 32-bit integer stored in the first 4 bytes of
`l` (missing bytes read as 0). -/
def readLE32 (l : List Nat) : Nat :=
  l.getD 0 0 + 256 * (l.getD 1 0 + 256 * (l.getD 2 0 + 256 * l.getD 3 0))

/-- Value of the little-endian 64-bit integer stored in the first 8 bytes of
`l` (missing bytes read as 0). -/
def readLE64 (l : List Nat) : Nat :=
  l.getD 0 0 + 256 * (l.getD 1 0 + 256 * (l.getD 2 0 + 256 *
    (l.getD 3 0 + 256 * (l.getD 4 0 + 256 * (l.getD 5 0 + 256 *
    (l.getD 6 0 + 256 * l.getD 7 0))))))

/-- One bit step of the reflected CRC-32 computation (polynomial
0xEDB88320). -/
def crcBit (c : Nat) : Nat :=
  if c % 2 == 1 then (c >>> 1) ^^^ 0xEDB88320 else c >>> 1

/-- One byte step of CRC-32: xor the byte into the low 8 bits and run 8 bit
steps. -/
def crcByte (c b : Nat) : Nat :=
  crcBit (crcBit (crcBit (crcBit (crcBit (crcBit (crcBit (crcBit
    (c ^^^ b % 256))))))))

/-- CRC-32 (IEEE 802.3) of a byte string, the value computed by
`internal::Crc32` (internal.h), which calls zlib's `crc32(0, data, bytes)`:
initial value 0xFFFFFFFF, reflected polynomial 0xEDB88320, final
complement. -/
def crc32 (data : List Nat) : Nat :=
  (data.foldl crcByte 0xFFFFFFFF) ^^^ 0xFFFFFFFF

/-- Reinterpretation of the low 32 bits of a `Nat` as a two's-complement
`int` (`static_cast<int>` in the C++ source). -/
def asInt32 (n : Nat) : Int :=
  if n % 2 ^ 32 < 2 ^ 31 then ((n % 2 ^ 32 : Nat) : Int)
  else ((n % 2 ^ 32 : Nat) : Int) - 2 ^ 32

/-- Reinterpretation of a value below `2^64` as a two's-complement `int64_t`
(used by `BinaryParser::ReadVarint`, internal.cc). -/
def asInt64 (n : Nat) : Int :=
  if n % 2 ^ 64 < 2 ^ 63 then ((n % 2 ^ 64 : Nat) : Int)
  else ((n % 2 ^ 64 : Nat) : Int) - 2 ^ 64

/-! ### Varint codec

`PackedHeaderBuilder::AppendUVarint` (writer.cc lines 219-225) emits base-128
little-endian digits; `BinaryParser::ReadUVarint` (internal.cc lines 103-126)
decodes them.  The encoder's `while (v >= 0x80)` loop is modelled with an
explicit fuel of 10, which is never exhausted for `uint64_t` inputs (a
`uint64_t` has at most 10 base-128 digits). -/

/-- Fuel-indexed body of `AppendUVarint`: while `v >= 0x80` emit
`uint8_t(v) | 0x80` (that is `(v % 256) ||| 0x80`) and shift right by 7;
finally emit `v`. -/
def appendUVarintGo : Nat → Nat → List Nat
  | 0, v => [v % 256]
  | fuel + 1, v =>
    if v < 0x80 then [v]
    else ((v % 256) ||| 0x80) :: appendUVarintGo fuel (v >>> 7)

/-- Byte string produced by `PackedHeaderBuilder::AppendUVarint` (writer.cc)
for a `uint64_t` value `v`.  Fuel 10 suffices for every `v < 2^64`. -/
def appendUVarint (v : Nat) : List Nat :=
  appendUVarintGo 10 v

/-- Loop of `BinaryParser::ReadUVarint` (internal.cc lines 103-126), threading
the parser data, the accumulator `v`, the shift, the continuation-byte count
`i` and the error state.  Returns the value, the unread data and the error
state.  Notable source behaviours kept here: on a too-long varint the
terminating byte is not consumed and the error is recorded; when the data runs
out before a terminating byte, the partial value is returned with no error.
The `% 2^64` truncation mirrors the `uint64_t` accumulator. -/
def readUVarintGo : List Nat → Nat → Nat → Nat → ErrSt → Nat × List Nat × ErrSt
  | [], v, _, _, e => (v, [], e)
  | b :: rest, v, shift, i, e =>
    if b < 0x80 then
      if i > 9 || (i == 9 && b > 1) then
        (0, b :: rest, esSet e "Failed to read uvarint")
      else
        (v ||| ((b <<< shift) % 2 ^ 64), rest, e)
    else
      readUVarintGo rest (v ||| (((b &&& 0x7f) <<< shift) % 2 ^ 64))
        (shift + 7) (i + 1) e

/-- State of an `internal::BinaryParser` (internal.h): the unread data and the
shared error reporter. -/
structure BP where
  data : List Nat
  err : ErrSt
deriving Repr, DecidableEq

/-- Mirror of `BinaryParser::ReadUVarint` (internal.cc). -/
def bpReadUVarint (p : BP) : Nat × BP :=
  let r := readUVarintGo p.data 0 0 0 p.err
  (r.1, ⟨r.2.1, r.2.2⟩)

/-- Mirror of `BinaryParser::ReadLEUint32` (internal.cc): on underflow the
error is recorded, 0 is returned and nothing is consumed. -/
def bpReadLE32 (p : BP) : Nat × BP :=
  match p.data with
  | b0 :: b1 :: b2 :: b3 :: rest =>
    (b0 + 256 * (b1 + 256 * (b2 + 256 * b3)), ⟨rest, p.err⟩)
  | _ => (0, ⟨p.data, esSet p.err "Failed to read uint32"⟩)

/-- Mirror of `BinaryParser::ReadLEUint64` (internal.cc). -/
def bpReadLE64 (p : BP) : Nat × BP :=
  match p.data with
  | b0 :: b1 :: b2 :: b3 :: b4 :: b5 :: b6 :: b7 :: rest =>
    (b0 + 256 * (b1 + 256 * (b2 + 256 * (b3 + 256 * (b4 + 256 * (b5 + 256 *
      (b6 + 256 * b7)))))), ⟨rest, p.err⟩)
  | _ => (0, ⟨p.data, esSet p.err "Failed to read uint64"⟩)

/-- Mirror of `BinaryParser::ReadVarint` (internal.cc): zig-zag decoding of an
unsigned varint, reinterpreting the result as a signed 64-bit integer. -/
def bpReadVarint (p : BP) : Int × BP :=
  let r := bpReadUVarint p
  let u := r.1
  let x := u >>> 1
  let y := if u % 2 == 1 then 2 ^ 64 - 1 - x else x
  (asInt64 y, r.2)

/-- Mirror of `BinaryParser::ReadBytes` (internal.cc): consume exactly `n`
bytes, or record an error, return null and consume nothing. -/
def bpReadBytes (p : BP) (n : Nat) : Option (List Nat) × BP :=
  if p.data.length < n then
    (none, ⟨p.data, esSet p.err "ReadBytes: failed to read bytes"⟩)
  else
    (some (p.data.take n), ⟨p.data.drop n, p.err⟩)

/-! ### Transformer registry (registry.cc)

`FindEntry` splits a config string of the form `"name args"` with two
`std::regex` patterns.  The character class `\s` of those patterns is modelled
by `isSpaceCh`; the registry map is modelled by the list of registered
names. -/

/-- Character class `\s` of `std::regex` (space, tab, newline, vertical tab,
form feed, carriage return). -/
def isSpaceCh (c : Char) : Bool :=
  c == ' ' || c == '\t' || c == '\n' || c == '\x0b' || c == '\x0c' || c == '\r'

/-- Whether `^(\S+)$` matches the whole string: non-empty and free of
whitespace. -/
def regexSingleToken (s : List Char) : Bool :=
  !s.isEmpty && s.all (fun c => !isSpaceCh c)

/-- Match of `^(\S+)\s+(.*)$` against a whole string, with the usual greedy
semantics: the first group takes the maximal leading run of non-whitespace,
`\s+` takes the following maximal whitespace run, the second group takes the
remainder.  `none` when the string has no such decomposition. -/
def regexNameArgs (s : List Char) : Option (List Char × List Char) :=
  let name := s.takeWhile (fun c => !isSpaceCh c)
  let rest := s.drop name.length
  let ws := rest.takeWhile isSpaceCh
  if name.isEmpty || ws.isEmpty then none
  else some (name, rest.drop ws.length)

/-- Mirror of `FindEntry` (registry.cc lines 46-73) over a registry holding
the set of registered names.  It returns the resolved name and the args passed
to the factory.  Note the source behaviour on a config that is not a single
token: registry.cc line 56 matches the name-args regex against the local
variable `name`, which is still empty at that point, instead of against
`config`, so that branch always fails. -/
def findEntry (registered : List (List Char)) (config : List Char) :
    Except String (List Char × List Char) :=
  if regexSingleToken config then
    if config ∈ registered then .ok (config, [])
    else .error "Transformer not found"
  else
    match regexNameArgs [] with
    | none => .error "Failed to extract transformer name from \"\""
    | some na =>
      if na.1 ∈ registered then .ok na
      else .error "Transformer not found"

/-! ### Header values (header.cc)

`ReadValue` parses one type-tagged value; `DecodeHeader` parses the header
item: a UINT-tagged entry count followed by that many key-value pairs. -/

/-- Mirror of the C++ `HeaderValue` struct (header.h): a type tag (0=INVALID,
1=BOOL, 2=INT, 3=UINT, 4=STRING) and one field per type.  `ReadValue`
initializes all fields and fills only the one matching the tag. -/
structure HV where
  type : Nat
  b : Bool
  i : Int
  u : Nat
  s : List Nat
deriving Repr, DecidableEq

/-- The all-invalid `HeaderValue` that `ReadValue` starts from. -/
def hvInvalid : HV := ⟨0, false, 0, 0, []⟩

/-- Body of `ReadValue` (header.cc lines 14-51).  The recursion (a STRING
length is itself a nested value) is fuel-indexed; each recursive call consumes
at least the type byte, so fuel `data.length + 1` is never exhausted.  The
final type tag is downgraded to INVALID whenever the parser's error state is
non-empty, exactly as in the source. -/
def readValueGo : Nat → BP → HV × BP
  | 0, p => (hvInvalid, p)
  | fuel + 1, p =>
    match p.data with
    | [] => (hvInvalid, ⟨p.data, esSet p.err "ReadBytes: failed to read bytes"⟩)
    | t :: rest =>
      let p1 : BP := ⟨rest, p.err⟩
      if t == 1 then
        match rest with
        | [] => (hvInvalid, ⟨rest, esSet p.err "ReadBytes: failed to read bytes"⟩)
        | b :: r2 =>
          let v : HV := { hvInvalid with b := b != 0 }
          let p2 : BP := ⟨r2, p.err⟩
          ({ v with type := if p2.err == none then 1 else 0 }, p2)
      else if t == 2 then
        let r := bpReadVarint p1
        ({ hvInvalid with i := r.1, type := if r.2.err == none then 2 else 0 }, r.2)
      else if t == 3 then
        let r := bpReadUVarint p1
        ({ hvInvalid with u := r.1, type := if r.2.err == none then 3 else 0 }, r.2)
      else if t == 4 then
        let rn := readValueGo fuel p1
        if rn.1.type == 3 then
          let len := asInt32 rn.1.u
          let p2 := rn.2
          if (p2.data.length : Int) < len then
            ({ hvInvalid with type := if (esSet p2.err "ReadBytes: failed to read bytes") == none then 4 else 0 },
             ⟨p2.data, esSet p2.err "ReadBytes: failed to read bytes"⟩)
          else
            let p3 : BP := ⟨p2.data.drop len.toNat, p2.err⟩
            let v4 : HV := { hvInvalid with s := p2.data.take len.toNat, type := if p3.err == none then 4 else 0 }
            (v4, p3)
        else
          (hvInvalid, ⟨rn.2.data, esSet rn.2.err "Failed to read string length"⟩)
      else
        (hvInvalid, ⟨rest, esSet p.err "Invalid value type"⟩)

/-- Mirror of `ReadValue` (header.cc): fuel is the data length plus one. -/
def readValue (p : BP) : HV × BP :=
  readValueGo (p.data.length + 1) p

/-- Loop of `DecodeHeader` (header.cc lines 64-73): read `n` key-value pairs,
appending to the accumulator; a non-STRING key or any recorded error stops the
loop, returning the entries collected so far. -/
def decodeHeaderLoop : Nat → BP → List (List Nat × HV) →
    List (List Nat × HV) × ErrSt
  | 0, p, acc => (acc, p.err)
  | n + 1, p, acc =>
    let rkey := readValue p
    if rkey.1.type != 4 then
      (acc, esSet rkey.2.err "Failed to read header key")
    else
      let rval := readValue rkey.2
      if rval.2.err != none then (acc, rval.2.err)
      else decodeHeaderLoop n rval.2 (acc ++ [(rkey.1.s, rval.1)])

/-- Mirror of `internal::DecodeHeader` (header.cc lines 55-75): the entry
count is read with `ReadValue` and must be a UINT-tagged value; the loop bound
is `static_cast<int>(rn.u)` (non-positive values run the loop zero times). -/
def decodeHeader (data : List Nat) : List (List Nat × HV) × ErrSt :=
  let rn := readValue ⟨data, none⟩
  if rn.1.type != 3 then ([], esSet rn.2.err "Failed to read # header entries")
  else
    let bound := asInt32 rn.1.u
    decodeHeaderLoop bound.toNat rn.2 []

/-- Header grammar claimed by the specification (§3 "Header dictionary"):
the item would begin with a bare unsigned varint `n_entries`, not a
type-tagged value.  Only the leading count read differs from `decodeHeader`;
it is used to exhibit the divergence. -/
def decodeHeaderClaimed (data : List Nat) : List (List Nat × HV) × ErrSt :=
  let rn := bpReadUVarint ⟨data, none⟩
  if rn.2.err != none then ([], esSet rn.2.err "Failed to read # header entries")
  else
    let bound := asInt32 rn.1
    decodeHeaderLoop bound.toNat rn.2 []

/-! ### Abstract header values and their encoding

The v2 header writer is not part of this repository's C++ sources (v2 files
are written elsewhere); `encValue` writes the grammar that `ReadValue`
accepts, so that the decoder can be proved to accept exactly that grammar. -/

/-- Abstract well-typed header value. -/
inductive HVal where
  | vbool : Bool → HVal
  | vint : Int → HVal
  | vuint : Nat → HVal
  | vstr : List Nat → HVal
deriving Repr, DecidableEq

/-- Zig-zag encoding `(n << 1) ^ (n >> 63)` of a signed 64-bit value, as a
natural number. -/
def zigzag (i : Int) : Nat :=
  if 0 ≤ i then 2 * i.toNat else 2 * (-i).toNat - 1

/-- Byte encoding of one type-tagged value in the grammar accepted by
`ReadValue`: a type byte, then a type-specific body; a STRING carries a nested
UINT-tagged length. -/
def encValue : HVal → List Nat
  | .vbool b => [1, if b then 1 else 0]
  | .vint i => 2 :: appendUVarint (zigzag i)
  | .vuint u => 3 :: appendUVarint u
  | .vstr s => 4 :: ((3 :: appendUVarint s.length) ++ s)

/-- The `HV` record that `ReadValue` returns for a well-formed value. -/
def hvOf : HVal → HV
  | .vbool b => { hvInvalid with type := 1, b := b }
  | .vint i => { hvInvalid with type := 2, i := i }
  | .vuint u => { hvInvalid with type := 3, u := u }
  | .vstr s => { hvInvalid with type := 4, s := s }

/-- Byte encoding of a whole header item in the grammar accepted by
`DecodeHeader`: a UINT-tagged entry count, then per entry a STRING-tagged key
and a tagged value. -/
def encHeader (entries : List (List Nat × HVal)) : List Nat :=
  encValue (.vuint entries.length) ++
    (entries.map (fun kv => encValue (.vstr kv.1) ++ encValue kv.2)).flatten

/-- Well-formedness of an abstract header value: the numeric fields fit the
machine types used by the codec. -/
def hvalWF : HVal → Prop
  | .vbool _ => True
  | .vint i => -(2 ^ 63) ≤ i ∧ i < 2 ^ 63
  | .vuint u => u < 2 ^ 64
  | .vstr s => s.length < 2 ^ 31

/-! ### Chunk reader (chunk.cc)

The byte source `ReadSeeker::Read` is modelled as a list of read results, one
per `Read` call issued by `ChunkReader::ReadChunk`; each result is the error
returned by the source (empty string modelled as `none`) together with the
bytes read. -/

/-- Result of one `ReadSeeker::Read` call: the source error (if any) and the
bytes read (`[]` models `n = 0`, end of file). -/
abbrev ReadRes := Option String × List Nat

/-- The five 8-byte magic constants (internal.h). -/
def magicInvalid : List Nat := [0xe4, 0xe7, 0x9a, 0xc1, 0xb3, 0xf6, 0xb7, 0xa2]

/-- Magic of a v1 unpacked block. -/
def magicUnpacked : List Nat := [0xfc, 0xae, 0x95, 0x31, 0xf0, 0xd9, 0xbd, 0x20]

/-- Magic of a v1 packed block (also the v2 data-block magic). -/
def magicPacked : List Nat := [0x2e, 0x76, 0x47, 0xeb, 0x34, 0x07, 0x3c, 0x2e]

/-- Magic of a v2 header block. -/
def magicHeader : List Nat := [0xd9, 0xe1, 0xd9, 0x5c, 0xc2, 0x16, 0x04, 0xf7]

/-- Magic of a v2 trailer block. -/
def magicTrailer : List Nat := [0xfe, 0xba, 0x1a, 0xd7, 0xcb, 0xdf, 0x75, 0x3a]

/-- Parsed header of one 32 KiB chunk, in the order `ReadChunk` extracts the
fields. -/
structure Chunk where
  magic : List Nat
  csum : Nat
  flag : Nat
  size : Nat
  total : Nat
  index : Nat
  payload : List Nat
deriving Repr, DecidableEq

/-- Mirror of `internal::ChunkReader::ReadChunk` (chunk.cc lines 100-150) on
one read result.  Returns the parsed chunk, or `none` with the (possibly
unchanged) error state.  The source's behaviour on a failed `Read` is kept
faithfully: when the `Read` returns a non-empty error or zero bytes, the
function prints to stdout and returns `false` without recording anything in
the error reporter (chunk.cc lines 110-113). -/
def crReadChunk (r : ReadRes) (e : ErrSt) : Option Chunk × ErrSt :=
  if r.1 != none || r.2.length == 0 then (none, e)
  else if r.2.length != 32768 then
    (none, esSet e "Failed to read chunk, got short byte count")
  else
    let data := r.2
    let size := readLE32 (data.drop 16)
    if size > 32740 then (none, esSet e "Invalid chunk size")
    else if readLE32 (data.drop 8) != crc32 ((data.drop 12).take (16 + size)) then
      (none, esSet e "Chunk checksum mismatch")
    else
      (some ⟨data.take 8, readLE32 (data.drop 8), readLE32 (data.drop 12),
             size, readLE32 (data.drop 20), readLE32 (data.drop 24),
             (data.drop 28).take size⟩, e)

/-- Loop of `internal::ChunkReader::Scan` (chunk.cc lines 26-67): consume
chunks until one with `index + 1 == total`, checking the block invariants.
The state carries the magic/total of the first chunk (`none` before it), the
number of accepted chunks (the size of `iov_`) and the accumulated payloads.
Returns success, the error state, the payload list and the unconsumed read
results. -/
def crScanGo : List ReadRes → ErrSt → Option (List Nat × Nat) → Nat →
    List (List Nat) → Bool × ErrSt × List (List Nat) × List ReadRes
  | [], e, _, _, iov => (false, e, iov, [])
  | r :: rest, e, first, cnt, iov =>
    match crReadChunk r e with
    | (none, e') => (false, e', iov, rest)
    | (some c, e') =>
      let mt := match first with
        | none => (c.magic, c.total)
        | some x => x
      if c.magic != mt.1 then
        (false, esSet e' "Magic number changed in the middle of a chunk sequence", iov, rest)
      else if c.index != cnt then
        (false, esSet e' "Wrong chunk index", iov, rest)
      else if c.total != mt.2 then
        (false, esSet e' "Wrong total chunk header", iov, rest)
      else if c.index + 1 == c.total then
        (true, e', iov ++ [c.payload], rest)
      else
        crScanGo rest e' (some mt) (cnt + 1) (iov ++ [c.payload])

/-- Mirror of `internal::ChunkReader::Scan` (chunk.cc lines 18-69): returns
immediately when an error is already recorded, otherwise runs the chunk
loop. -/
def crScan (src : List ReadRes) (e : ErrSt) :
    Bool × ErrSt × List (List Nat) × List ReadRes :=
  if e != none then (false, e, [], src)
  else crScanGo src e none 0 []

/-! ### v1 writer (writer.cc)

`BaseWriter::Write` frames a block; `PackedHeaderBuilder` builds the
packed-item list header; `PackedWriterImpl` buffers items and flushes blocks.
The byte sink is modelled by concatenating the emitted blocks; the
transformer is modelled by a total function `enc` (a null transformer is the
identity). -/

/-- Bytes of one v1 block as emitted by `BaseWriter::Write` preceded by
`WriteHeader` (writer.cc lines 48-78 and 112-135): magic, little-endian
64-bit payload size, CRC-32 of the 8 size bytes, then the two payload spans
written contiguously. -/
def v1BlockBytes (magic one two : List Nat) : List Nat :=
  magic ++ leU64 (one.length + two.length) ++
    leU32 (crc32 (leU64 (one.length + two.length))) ++ one ++ two

/-- Varint size vector of a packed-item list: the `sizes_` buffer of
`PackedHeaderBuilder` after adding each item's size (as a `uint32_t`,
writer.cc line 187). -/
def sizesBytes (items : List (List Nat)) : List Nat :=
  (items.map (fun r => appendUVarint (r.length % 2 ^ 32))).flatten

/-- Varint region of a packed-item list: the item count followed by the item
sizes, the exact byte range covered by the checksum computed in
`PackedHeaderBuilder::AppendHeader` (writer.cc lines 198-211). -/
def varintRegion (items : List (List Nat)) : List Nat :=
  appendUVarint items.length ++ sizesBytes items

/-- Header of a packed-item list built by `PackedHeaderBuilder::AppendHeader`
(writer.cc lines 198-211): a little-endian CRC-32 of the varint region, then
the varint region itself. -/
def packedHeaderBytes (items : List (List Nat)) : List Nat :=
  leU32 (crc32 (varintRegion items)) ++ varintRegion items

/-- Payload of a v1 packed block for the buffered `items`, as assembled by
`PackedWriterImpl::Flush` (writer.cc lines 284-309): the packed-item-list
header followed by the transformed items region. -/
def packedListBytes (enc : List Nat → List Nat) (items : List (List Nat)) :
    List Nat :=
  packedHeaderBytes items ++ enc items.flatten

/-- Bytes of one v1 packed block: `Flush` passes the header and the
transformed items to `BaseWriter::Write` as the two spans. -/
def packedBlockBytes (enc : List Nat → List Nat) (items : List (List Nat)) :
    List Nat :=
  v1BlockBytes magicPacked (packedHeaderBytes items) (enc items.flatten)

/-- State of a `PackedWriterImpl`: the buffered items (`buffered_items_` is
their concatenation and `header_builder_` holds their count and sizes), the
item groups flushed so far (each group was emitted as one block, oldest
first), and the sticky error. -/
structure PWState where
  pending : List (List Nat)
  flushed : List (List (List Nat))
  err : ErrSt
deriving Repr

/-- The state of a freshly constructed packed writer. -/
def pwInit : PWState := ⟨[], [], none⟩

/-- Flush decision of `PackedWriterImpl::Write` (writer.cc lines 257-263): a
new item triggers a flush of the pending group when the item count would
exceed `max_packed_items` or the buffered byte count (through
`static_cast<int>`) would exceed `max_packed_bytes`.  `Flush` moves the
pending group to the flushed list (the sink and the transformer are modelled
as never failing). -/
def pwFlushIfFull (maxI maxB : Int) (s : PWState) (item : List Nat) : PWState :=
  if ((s.pending.length : Int) + 1 > maxI) ∨
      (asInt32 (s.pending.flatten.length + item.length) > maxB) then
    { s with pending := [], flushed := s.flushed ++ [s.pending] }
  else s

/-- Mirror of `PackedWriterImpl::Write` (writer.cc lines 251-272) for one
item, with `max_packed_items`/`max_packed_bytes` as `int64_t` parameters.
An oversized item is rejected (through `static_cast<int>`) before anything
is buffered; otherwise the pending group is flushed if full and the item is
buffered.  The `AddItemSize` guard (writer.cc lines 187-194) rejects a
2^32-1-th item. -/
def pwWrite (maxI maxB : Int) (s : PWState) (item : List Nat) : PWState × Bool :=
  if asInt32 item.length > maxB then
    ({ s with err := esSet s.err "Item size exceeds block size" }, false)
  else
    let s1 := pwFlushIfFull maxI maxB s item
    if s1.pending.length == 2 ^ 32 - 1 then
      ({ s1 with err := esSet s1.err "Could not add new item" }, false)
    else
      ({ s1 with pending := s1.pending ++ [item] }, true)

/-- Folding `PackedWriterImpl::Write` over a record sequence.  As in the
source, a failed `Write` does not stop later calls (the caller may keep
writing; only the failed item is dropped). -/
def pwWriteAll (maxI maxB : Int) (records : List (List Nat)) : PWState :=
  records.foldl (fun s r => (pwWrite maxI maxB s r).1) pwInit

/-- Mirror of `PackedWriterImpl::Close` (writer.cc lines 274-279): `Flush` is
called unconditionally, so the pending group is always emitted as one more
block, even when it is empty. -/
def pwClose (s : PWState) : PWState :=
  { s with pending := [], flushed := s.flushed ++ [s.pending] }

/-- Byte string written to the sink by a packed writer for `records` followed
by `Close`: the concatenation of the flushed blocks in order. -/
def packedFileBytes (enc : List Nat → List Nat) (maxI maxB : Int)
    (records : List (List Nat)) : List Nat :=
  (((pwClose (pwWriteAll maxI maxB records)).flushed).map
    (packedBlockBytes enc)).flatten

/-- Byte string written to the sink by an unpacked writer
(`UnpackedWriterImpl::Write`, writer.cc lines 156-172): one block per record,
each holding the transformed record as its whole payload. -/
def unpackedFileBytes (enc : List Nat → List Nat)
    (records : List (List Nat)) : List Nat :=
  (records.map (fun r => v1BlockBytes magicUnpacked (enc r) [])).flatten

/-! ### v1 reader (legacy_reader.cc)

`BaseReader::Scan` reads one block header and payload; `PackedReaderImpl`
parses the packed-item list of each block.  The byte source is the remaining
input list; reaching it empty is a clean end of file. -/

/-- Result of `BaseReader::Scan` (legacy_reader.cc lines 54-69): clean end of
file, an error, or one block payload together with the unread input. -/
inductive BaseScan where
  | eof : BaseScan
  | fail : String → BaseScan
  | ok : List Nat → List Nat → BaseScan
deriving Repr, DecidableEq

/-- Mirror of `BaseReader::Scan` with `ReadHeader` (legacy_reader.cc lines
54-126): read the 20-byte header (0 bytes means EOF, a short read is an
error), check the magic, check the CRC-32 of the 8 size bytes against the
stored 32-bit checksum, reject sizes above 2^29, then read the payload. -/
def baseScan (magic input : List Nat) : BaseScan :=
  if input.length == 0 then .eof
  else if input.length < 20 then .fail "Corrupt header"
  else if input.take 8 != magic then .fail "Wrong header magic"
  else
    let sizeBytes := (input.drop 8).take 8
    let size := readLE64 sizeBytes
    let expectedCrc := readLE32 (input.drop 16)
    if crc32 sizeBytes != expectedCrc then .fail "corrupt header crc"
    else if size > 2 ^ 29 then .fail "unreasonably large read record encountered"
    else if ((input.drop 20).take size).length != size then
      .fail "failed to read byte body"
    else .ok ((input.drop 20).take size) (input.drop (20 + size))

/-- Item table of `PackedReaderImpl::ReadBlock`: each parsed size becomes an
`Item {offset, size}` (both `int`, legacy_reader.cc lines 243-250), the
offset being the previous offset plus the previous size. -/
def buildItems (sizes : List Int) (off : Int) : List (Int × Int) :=
  match sizes with
  | [] => []
  | s :: rest => (off, s) :: buildItems rest (off + s)

/-- Reading `n` item-size varints in the loop of `ReadBlock` (legacy_reader.cc
lines 243-250); errors accumulate silently in the parser state. -/
def readSizes : Nat → BP → List Nat × BP
  | 0, p => ([], p)
  | n + 1, p =>
    let r := bpReadUVarint p
    let rest := readSizes n r.2
    (r.1 :: rest.1, rest.2)

/-- Extraction performed by `PackedReaderImpl::Get` (legacy_reader.cc lines
214-217) for every item of the table: the span of `size` bytes at `offset`
from the start of the items region. -/
def extractItems (region : List Nat) (items : List (Int × Int)) :
    List (List Nat) :=
  items.map (fun it => (region.drop it.1.toNat).take it.2.toNat)

/-- Application of an optional decode transformer, as `RunTransformer`
(legacy_reader.cc lines 29-44) rewrites a buffer: a missing transformer
leaves the bytes unchanged. -/
def applyDec (dec? : Option (List Nat → List Nat)) (x : List Nat) : List Nat :=
  match dec? with
  | none => x
  | some dec => dec x

/-- Result of `PackedReaderImpl::ReadBlock`: an error, or the list of items of
the block. -/
inductive BlockParse where
  | fail : String → BlockParse
  | ok : List (List Nat) → BlockParse
deriving Repr, DecidableEq

/-- First error message: the message already recorded if any, else the new
one (what `Error()` reports after `ErrorReporter::Set msg`). -/
def esMsg (e : ErrSt) (msg : String) : String :=
  match e with
  | none => msg
  | some m => m

/-- Mirror of `PackedReaderImpl::ReadBlock` (legacy_reader.cc lines 228-275)
on one block payload: read the 32-bit checksum, the item count (rejecting 0
or at least the block size), the size varints; verify the checksum over the
varint region; apply the decode transformer (if any) to the remaining items
region; check that the last item ends exactly at the end of the region; and
finally fail on any error the parser recorded along the way.  `dec?` is the
optional decode transformer (total; `none` is a null transformer). -/
def readPackedBlock (dec? : Option (List Nat → List Nat)) (block : List Nat) :
    BlockParse :=
  let p0 : BP := ⟨block, none⟩
  let r1 := bpReadLE32 p0
  if r1.2.err != none then .fail (esMsg r1.2.err "") else
  let crcData := r1.2.data
  let r2 := bpReadUVarint r1.2
  let nItems := r2.1
  if nItems == 0 || nItems ≥ block.length then
    .fail (esMsg r2.2.err "invalid block header (n_items)")
  else
  let r3 := readSizes nItems r2.2
  let sizes := r3.1.map asInt32
  let items := buildItems sizes 0
  let varints := crcData.take (crcData.length - r3.2.data.length)
  if crc32 varints != r1.1 then .fail (esMsg r3.2.err "wrong crc") else
  let region := applyDec dec? r3.2.data
  let back := items.getLastD (0, 0)
  if back.1 + back.2 != (region.length : Int) then
    .fail (esMsg r3.2.err "junk at the end of block")
  else if r3.2.err != none then .fail (esMsg r3.2.err "")
  else .ok (extractItems region items)

/-- Scan loop of a packed reader over a whole input: blocks are read and their
items accumulated until clean EOF or an error.  The fuel only serves
termination; `input.length + 1` always suffices because every block consumes
at least 20 bytes. -/
def readPackedAllGo (dec? : Option (List Nat → List Nat)) :
    Nat → List Nat → List (List Nat) → List (List Nat) × Option String
  | 0, _, acc => (acc, some "out of fuel")
  | fuel + 1, input, acc =>
    match baseScan magicPacked input with
    | .eof => (acc, none)
    | .fail e => (acc, some e)
    | .ok payload rest =>
      match readPackedBlock dec? payload with
      | .fail e => (acc, some e)
      | .ok items => readPackedAllGo dec? fuel rest (acc ++ items)

/-- Records yielded by scanning a whole v1 packed file, with the first error
if any (`none` means the scan ended in clean EOF). -/
def readPackedAll (dec? : Option (List Nat → List Nat)) (input : List Nat) :
    List (List Nat) × Option String :=
  readPackedAllGo dec? (input.length + 1) input []

/-- Scan loop of an unpacked reader (`UnpackedReaderImpl::Scan`,
legacy_reader.cc lines 163-174): each block payload, run through the decode
transformer if present, is one record. -/
def readUnpackedAllGo (dec? : Option (List Nat → List Nat)) :
    Nat → List Nat → List (List Nat) → List (List Nat) × Option String
  | 0, _, acc => (acc, some "out of fuel")
  | fuel + 1, input, acc =>
    match baseScan magicUnpacked input with
    | .eof => (acc, none)
    | .fail e => (acc, some e)
    | .ok payload rest =>
      readUnpackedAllGo dec? fuel rest (acc ++ [applyDec dec? payload])

/-- Records yielded by scanning a whole v1 unpacked file. -/
def readUnpackedAll (dec? : Option (List Nat → List Nat)) (input : List Nat) :
    List (List Nat) × Option String :=
  readUnpackedAllGo dec? (input.length + 1) input []

/-- Magic field of a raw chunk. -/
def cMagic (d : List Nat) : List Nat := d.take 8

/-- Checksum field of a raw chunk. -/
def cCsum (d : List Nat) : Nat := readLE32 (d.drop 8)

/-- Payload-size field of a raw chunk. -/
def cSize (d : List Nat) : Nat := readLE32 (d.drop 16)

/-- Total-chunks field of a raw chunk. -/
def cTotal (d : List Nat) : Nat := readLE32 (d.drop 20)

/-- Index field of a raw chunk. -/
def cIndex (d : List Nat) : Nat := readLE32 (d.drop 24)

/-- Validity of the `i`-th raw chunk of a block whose first chunk carries
magic `m0` and total `t0`: full 32768-byte read, unchanged magic, index equal
to the number of chunks seen, unchanged total, payload size at most 32740,
and checksum equal to the CRC-32 of bytes [12, 28+size). -/
def chunkGood (m0 : List Nat) (t0 i : Nat) (d : List Nat) : Prop :=
  d.length = 32768 ∧ cMagic d = m0 ∧ cIndex d = i ∧ cTotal d = t0 ∧
  cSize d ≤ 32740 ∧ cCsum d = crc32 ((d.drop 12).take (16 + cSize d))

/-- Well-formed block group emitted by a `Write`-triggered flush. -/
def pwGood (mI mB : Nat) (g : List (List Nat)) : Prop :=
  1 ≤ g.length ∧ g.length ≤ mI ∧ g.flatten.length ≤ mB


/-! ## Lemmas -/

/-- Bitwise or of disjoint ranges is addition: when `a` fits below bit `n`,
`a ||| (b <<< n)` is `a + b * 2^n`. -/
theorem lor_shiftLeft_add (n : Nat) :
    ∀ a b : Nat, a < 2 ^ n → a ||| (b <<< n) = a + b * 2 ^ n := by
  induction n with
  | zero =>
    intro a b h
    have ha : a = 0 := by omega
    subst ha
    simp [Nat.shiftLeft_eq]
  | succ n ih =>
    intro a b h
    have hb : b <<< (n + 1) = Nat.bit false (b <<< n) := by
      simp [Nat.bit_val, Nat.shiftLeft_succ]
    have ha : a = Nat.bit a.bodd a.div2 := (Nat.bit_decomp a).symm
    rw [hb]
    conv_lhs => rw [ha]
    rw [Nat.lor_bit]
    have hdecomp := Nat.bodd_add_div2 a
    have hle : a.bodd.toNat ≤ 1 := by cases a.bodd <;> simp
    have hdiv : a.div2 < 2 ^ n := by
      rw [pow_succ] at h
      omega
    rw [ih _ b hdiv, Nat.bit_val, pow_succ]
    calc 2 * (a.div2 + b * 2 ^ n) + (a.bodd || false).toNat
        = (a.bodd.toNat + 2 * a.div2) + b * (2 ^ n * 2) := by
          cases a.bodd <;> simp <;> ring
      _ = a + b * (2 ^ n * 2) := by rw [hdecomp]

/-- A byte with the high bit forced on is at least 128. -/
theorem byte_lor_high_ge : ∀ a < 256, 128 ≤ a ||| 128 := by decide

/-- A byte with the high bit forced on, masked with 0x7f, is the value
modulo 128. -/
theorem byte_lor_high_land : ∀ a < 256, (a ||| 128) &&& 127 = a % 128 := by
  decide

/-- Powers of 128 are powers of 2. -/
theorem pow128_eq (k : Nat) : 128 ^ k = 2 ^ (7 * k) := by
  induction k with
  | zero => rfl
  | succ k ih =>
    rw [pow_succ, ih, show 7 * (k + 1) = 7 * k + 7 by ring, pow_add]
    norm_num


theorem byte_lor_high_lt : ∀ a < 256, a ||| 128 < 256 := by decide

theorem readUVarintGo_append (fuel : Nat) :
    ∀ (v acc i : Nat) (rest : List Nat) (e : ErrSt),
      v < 128 ^ fuel → i ≤ 9 → v < 2 ^ (64 - 7 * i) → acc < 2 ^ (7 * i) →
      readUVarintGo (appendUVarintGo fuel v ++ rest) acc (7 * i) i e =
        (acc + v * 2 ^ (7 * i), rest, e) := by
  induction fuel with
  | zero =>
    intro v acc i rest e hfuel hi hv hacc
    have hv0 : v = 0 := by simpa using hfuel
    subst hv0
    show readUVarintGo (0 :: rest) acc (7 * i) i e = _
    rw [readUVarintGo]
    have hcheck : (decide (i > 9) || (i == 9 && decide ((0:Nat) > 1))) = false := by
      simp
      omega
    rw [if_pos (by norm_num), hcheck]
    simp only [Bool.false_eq_true, if_false]
    simp
  | succ fuel ih =>
    intro v acc i rest e hfuel hi hv hacc
    by_cases hsmall : v < 0x80
    · have henc : appendUVarintGo (fuel + 1) v = [v] := by
        simp [appendUVarintGo, hsmall]
      rw [henc]
      show readUVarintGo (v :: rest) acc (7 * i) i e = _
      rw [readUVarintGo]
      have hcheck : (decide (i > 9) || (i == 9 && decide (v > 1))) = false := by
        rcases Nat.lt_or_ge i 9 with h9 | h9
        · simp
          omega
        · have hi9 : i = 9 := by omega
          subst hi9
          have hv2 : v < 2 := by
            have he : (2 : Nat) ^ (64 - 7 * 9) = 2 := by norm_num
            omega
          simp
          omega
      rw [if_pos hsmall, hcheck]
      simp only [Bool.false_eq_true, if_false]
      have hshift : v <<< (7 * i) = v * 2 ^ (7 * i) := Nat.shiftLeft_eq v _
      have hlt : v * 2 ^ (7 * i) < 2 ^ 64 := by
        have h1 : v * 2 ^ (7 * i) < 2 ^ (64 - 7 * i) * 2 ^ (7 * i) :=
          (Nat.mul_lt_mul_right (Nat.pos_pow_of_pos _ (by norm_num))).mpr hv
        have h2 : (2:Nat) ^ (64 - 7 * i) * 2 ^ (7 * i) = 2 ^ 64 := by
          rw [← pow_add]
          congr 1
          omega
        omega
      rw [hshift, Nat.mod_eq_of_lt hlt]
      rw [← hshift, lor_shiftLeft_add _ _ _ hacc, hshift]
    · have henc : appendUVarintGo (fuel + 1) v =
          ((v % 256) ||| 0x80) :: appendUVarintGo fuel (v >>> 7) := by
        simp [appendUVarintGo, hsmall]
      rw [henc]
      show readUVarintGo (((v % 256) ||| 0x80) :: (appendUVarintGo fuel (v >>> 7) ++ rest)) acc (7 * i) i e = _
      rw [readUVarintGo]
      have hge : 128 ≤ (v % 256) ||| 128 := byte_lor_high_ge _ (Nat.mod_lt _ (by norm_num))
      have hnot : ¬ ((v % 256) ||| 0x80) < 0x80 := by
        show ¬ ((v % 256) ||| 128) < 128
        omega
      rw [if_neg hnot]
      have hmask : ((v % 256) ||| 0x80) &&& 0x7f = v % 128 := by
        have hh := byte_lor_high_land (v % 256) (Nat.mod_lt _ (by norm_num))
        show ((v % 256) ||| 128) &&& 127 = v % 128
        rw [hh, Nat.mod_mod_of_dvd]
        norm_num
      rw [hmask]
      have hi8 : i ≤ 8 := by
        by_contra hgt
        have hi9 : i = 9 := by omega
        subst hi9
        have he : (2 : Nat) ^ (64 - 7 * 9) = 2 := by norm_num
        omega
      have hshift : (v % 128) <<< (7 * i) = (v % 128) * 2 ^ (7 * i) :=
        Nat.shiftLeft_eq _ _
      have hlt64 : (v % 128) * 2 ^ (7 * i) < 2 ^ 64 := by
        have h1 : (v % 128) * 2 ^ (7 * i) < 128 * 2 ^ (7 * i) :=
          (Nat.mul_lt_mul_right (Nat.pos_pow_of_pos _ (by norm_num))).mpr (Nat.mod_lt _ (by norm_num))
        have h2 : (128:Nat) * 2 ^ (7 * i) = 2 ^ (7 * i + 7) := by
          rw [pow_add]
          ring
        have h3 : (2:Nat) ^ (7 * i + 7) ≤ 2 ^ 64 := Nat.pow_le_pow_right (by norm_num) (by omega)
        omega
      rw [hshift, Nat.mod_eq_of_lt hlt64, ← hshift, lor_shiftLeft_add _ _ _ hacc]
      have hstep : 7 * i + 7 = 7 * (i + 1) := by ring
      have hv' : v >>> 7 < 2 ^ (64 - 7 * (i + 1)) := by
        rw [Nat.shiftRight_eq_div_pow]
        have hiff : v / 2 ^ 7 < 2 ^ (64 - 7 * (i+1)) ↔ v < 2 ^ (64 - 7*(i+1)) * 2 ^ 7 :=
          Nat.div_lt_iff_lt_mul (by norm_num)
        rw [hiff, ← pow_add]
        have harith : 64 - 7 * (i + 1) + 7 = 64 - 7 * i := by omega
        rw [harith]
        exact hv
      have hfuel' : v >>> 7 < 128 ^ fuel := by
        rw [Nat.shiftRight_eq_div_pow]
        have h128 : (2:Nat)^7 = 128 := by norm_num
        rw [h128]
        have hiff : v / 128 < 128 ^ fuel ↔ v < 128 ^ fuel * 128 := Nat.div_lt_iff_lt_mul (by norm_num)
        rw [hiff, ← pow_succ]
        exact hfuel
      have hacc' : acc + (v % 128) * 2 ^ (7 * i) < 2 ^ (7 * (i + 1)) := by
        have h1 : (v % 128) * 2 ^ (7*i) ≤ 127 * 2 ^ (7*i) :=
          Nat.mul_le_mul_right _ (by omega)
        have h2 : (2:Nat) ^ (7 * (i+1)) = 128 * 2 ^ (7 * i) := by
          rw [← hstep, pow_add]
          ring
        omega
      have hih := ih (v >>> 7) (acc + (v % 128) * 2 ^ (7 * i)) (i + 1) rest e hfuel' (by omega) hv' hacc'
      rw [hstep, hih]
      congr 1
      have hdecomp : v = 128 * (v >>> 7) + v % 128 := by
        rw [Nat.shiftRight_eq_div_pow]
        have h128 : (2:Nat)^7 = 128 := by norm_num
        rw [h128]
        omega
      have h2 : (2:Nat) ^ (7 * (i+1)) = 2 ^ (7 * i) * 128 := by
        rw [← hstep, pow_add]
        norm_num
      calc acc + (v % 128) * 2 ^ (7*i) + v >>> 7 * 2 ^ (7 * (i+1))
          = acc + (v % 128) * 2 ^ (7*i) + (v >>> 7) * (2 ^ (7*i) * 128) := by rw [h2]
        _ = acc + (128 * (v >>> 7) + v % 128) * 2 ^ (7 * i) := by ring
        _ = acc + v * 2 ^ (7 * i) := by rw [← hdecomp]

theorem bpReadUVarint_append (v : Nat) (rest : List Nat) (e : ErrSt)
    (h : v < 2 ^ 64) :
    bpReadUVarint ⟨appendUVarint v ++ rest, e⟩ = (v, ⟨rest, e⟩) := by
  unfold bpReadUVarint appendUVarint
  have h1 : v < 128 ^ 10 := by
    rw [pow128_eq]
    calc v < 2 ^ 64 := h
      _ ≤ 2 ^ (7 * 10) := Nat.pow_le_pow_right (by norm_num) (by norm_num)
  have hh := readUVarintGo_append 10 v 0 0 rest e h1 (by norm_num) (by simpa using h) (by norm_num)
  simp only [Nat.mul_zero] at hh
  rw [hh]
  simp



theorem readUVarintGo_too_long :
    ∀ (pre : List Nat) (b : Nat) (rest : List Nat) (acc shift i : Nat) (e : ErrSt),
      (∀ x ∈ pre, 128 ≤ x) → b < 128 →
      (i + pre.length > 9 ∨ (i + pre.length = 9 ∧ b > 1)) →
      readUVarintGo (pre ++ b :: rest) acc shift i e =
        (0, b :: rest, esSet e "Failed to read uvarint") := by
  intro pre
  induction pre with
  | nil =>
    intro b rest acc shift i e hpre hb hcond
    show readUVarintGo (b :: rest) acc shift i e = _
    rw [readUVarintGo, if_pos hb]
    have hc : (decide (i > 9) || (i == 9 && decide (b > 1))) = true := by
      simp at hcond ⊢
      omega
    rw [hc]
    simp
  | cons p ps ih =>
    intro b rest acc shift i e hpre hb hcond
    have hp : 128 ≤ p := hpre p (List.mem_cons_self _ _)
    show readUVarintGo (p :: (ps ++ b :: rest)) acc shift i e = _
    rw [readUVarintGo, if_neg (by omega)]
    exact ih b rest _ _ (i+1) e (fun x hx => hpre x (List.mem_cons_of_mem _ hx)) hb
      (by simp at hcond ⊢ ; omega)

theorem readUVarintGo_truncated :
    ∀ (bytes : List Nat) (acc shift i : Nat) (e : ErrSt),
      (∀ x ∈ bytes, 128 ≤ x) →
      (readUVarintGo bytes acc shift i e).2 = ([], e) := by
  intro bytes
  induction bytes with
  | nil =>
    intro acc shift i e _
    rfl
  | cons b bs ih =>
    intro acc shift i e hall
    have hb : 128 ≤ b := hall b (List.mem_cons_self _ _)
    show (readUVarintGo (b :: bs) acc shift i e).2 = ([], e)
    rw [readUVarintGo, if_neg (by omega)]
    exact ih _ _ _ e (fun x hx => hall x (List.mem_cons_of_mem _ hx))

theorem readUVarintGo_cont_foldl :
    ∀ (bytes : List Nat) (acc shift i : Nat) (e : ErrSt),
      (∀ x ∈ bytes, 128 ≤ x) →
      readUVarintGo bytes acc shift i e =
        ((bytes.foldl
          (fun p b => (p.1 ||| (((b &&& 127) <<< p.2) % 2 ^ 64), p.2 + 7))
          (acc, shift)).1, [], e) := by
  intro bytes
  induction bytes with
  | nil =>
    intro acc shift i e _
    rfl
  | cons b bs ih =>
    intro acc shift i e hall
    have hb : 128 ≤ b := hall b (List.mem_cons_self _ _)
    rw [readUVarintGo, if_neg (by omega), List.foldl_cons]
    exact ih _ _ _ e (fun x hx => hall x (List.mem_cons_of_mem _ hx))

theorem readLE32_leU32 (v : Nat) (rest : List Nat) (h : v < 2 ^ 32) :
    readLE32 (leU32 v ++ rest) = v := by
  simp [readLE32, leU32]
  omega

theorem readLE64_leU64 (v : Nat) (rest : List Nat) (h : v < 2 ^ 64) :
    readLE64 (leU64 v ++ rest) = v := by
  simp [readLE64, leU64]
  omega

theorem bpReadLE32_leU32 (v : Nat) (rest : List Nat) (e : ErrSt) (h : v < 2 ^ 32) :
    bpReadLE32 ⟨leU32 v ++ rest, e⟩ = (v, ⟨rest, e⟩) := by
  simp [bpReadLE32, leU32]
  omega

theorem crcBit_lt (c : Nat) (h : c < 2 ^ 32) : crcBit c < 2 ^ 32 := by
  unfold crcBit
  split
  · have h1 : c >>> 1 < 2 ^ 32 := by
      rw [Nat.shiftRight_eq_div_pow]
      omega
    exact Nat.xor_lt_two_pow h1 (by norm_num)
  · rw [Nat.shiftRight_eq_div_pow]
    omega

theorem crcByte_lt (c b : Nat) (h : c < 2 ^ 32) : crcByte c b < 2 ^ 32 := by
  unfold crcByte
  apply crcBit_lt; apply crcBit_lt; apply crcBit_lt; apply crcBit_lt
  apply crcBit_lt; apply crcBit_lt; apply crcBit_lt; apply crcBit_lt
  exact Nat.xor_lt_two_pow h (Nat.mod_lt _ (by norm_num) |>.trans_le (by norm_num))

theorem crc32_lt (l : List Nat) : crc32 l < 2 ^ 32 := by
  unfold crc32
  have hfold : ∀ (xs : List Nat) (c : Nat), c < 2 ^ 32 → xs.foldl crcByte c < 2 ^ 32 := by
    intro xs
    induction xs with
    | nil => intro c hc; simpa using hc
    | cons x rest ih =>
      intro c hc
      exact ih _ (crcByte_lt _ _ hc)
  exact Nat.xor_lt_two_pow (hfold l _ (by norm_num)) (by norm_num)

theorem appendUVarintGo_length_le :
    ∀ (fuel v k : Nat), v < 128 ^ k → 1 ≤ k →
      (appendUVarintGo fuel v).length ≤ k := by
  intro fuel
  induction fuel with
  | zero =>
    intro v k _ hk
    simpa [appendUVarintGo] using hk
  | succ fuel ih =>
    intro v k hv hk
    by_cases hsmall : v < 0x80
    · simp [appendUVarintGo, hsmall]
      omega
    · simp only [appendUVarintGo, if_neg hsmall, List.length_cons]
      have hk2 : 2 ≤ k := by
        by_contra hlt
        have : k = 1 := by omega
        subst this
        simp at hv
        omega
      have hrec : v >>> 7 < 128 ^ (k - 1) := by
        rw [Nat.shiftRight_eq_div_pow]
        have h128 : (2:Nat)^7 = 128 := by norm_num
        rw [h128]
        have hiff : v / 128 < 128 ^ (k-1) ↔ v < 128 ^ (k-1) * 128 := Nat.div_lt_iff_lt_mul (by norm_num)
        rw [hiff, ← pow_succ]
        have : k - 1 + 1 = k := by omega
        rw [this]
        exact hv
      have := ih (v >>> 7) (k - 1) hrec (by omega)
      omega

theorem appendUVarintGo_length_pos (fuel v : Nat) :
    1 ≤ (appendUVarintGo fuel v).length := by
  cases fuel with
  | zero => simp [appendUVarintGo]
  | succ fuel =>
    by_cases h : v < 0x80 <;> simp [appendUVarintGo, h]



theorem v1BlockBytes_length (magic one two : List Nat) :
    (v1BlockBytes magic one two).length =
      magic.length + 12 + one.length + two.length := by
  simp [v1BlockBytes, leU64, leU32]
  ring

theorem leU64_length (v : Nat) : (leU64 v).length = 8 := by simp [leU64]

theorem leU32_length (v : Nat) : (leU32 v).length = 4 := by simp [leU32]

theorem baseScan_block (magic one two rest : List Nat)
    (hm : magic.length = 8) (hsize : one.length + two.length ≤ 2 ^ 29) :
    baseScan magic (v1BlockBytes magic one two ++ rest) =
      .ok (one ++ two) rest := by
  have hlen : (v1BlockBytes magic one two ++ rest).length =
      20 + (one.length + two.length) + rest.length := by
    rw [List.length_append, v1BlockBytes_length]
    omega
  have hassoc : v1BlockBytes magic one two ++ rest =
      magic ++ (leU64 (one.length + two.length) ++
        (leU32 (crc32 (leU64 (one.length + two.length))) ++ ((one ++ two) ++ rest))) := by
    unfold v1BlockBytes
    simp [List.append_assoc]
  unfold baseScan
  rw [if_neg (by simp [hlen])]
  rw [if_neg (by simp [hlen]; omega)]
  have htake8 : (v1BlockBytes magic one two ++ rest).take 8 = magic := by
    rw [hassoc, List.take_append_of_le_length (by omega), List.take_of_length_le (by omega)]
  rw [htake8]
  simp only [bne_self_eq_false, Bool.false_eq_true, if_false]
  have htakeSize : ((v1BlockBytes magic one two ++ rest).drop 8).take 8 =
      leU64 (one.length + two.length) := by
    have hdrop8 : (v1BlockBytes magic one two ++ rest).drop 8 =
        leU64 (one.length + two.length) ++
          (leU32 (crc32 (leU64 (one.length + two.length))) ++ ((one ++ two) ++ rest)) := by
      rw [hassoc, List.drop_append_of_le_length (by omega), List.drop_of_length_le (by omega)]
      simp
    rw [hdrop8, List.take_append_of_le_length (by rw [leU64_length]),
      List.take_of_length_le (by rw [leU64_length])]
  rw [htakeSize]
  have hdrop16 : (v1BlockBytes magic one two ++ rest).drop 16 =
      leU32 (crc32 (leU64 (one.length + two.length))) ++ ((one ++ two) ++ rest) := by
    have h16 : (magic ++ leU64 (one.length + two.length)).length = 16 := by
      rw [List.length_append, leU64_length]
      omega
    rw [hassoc, ← List.append_assoc, List.drop_append_of_le_length (by omega)]
    rw [show (16:Nat) = (magic ++ leU64 (one.length + two.length)).length from h16.symm,
      List.drop_length]
    simp
  rw [hdrop16, readLE32_leU32 _ _ (crc32_lt _)]
  have hr64 : readLE64 (leU64 (one.length + two.length)) = one.length + two.length := by
    rw [← List.append_nil (leU64 (one.length + two.length))]
    exact readLE64_leU64 _ _ (by omega)
  rw [hr64]
  simp only [bne_self_eq_false, Bool.false_eq_true, if_false]
  rw [if_neg (by omega)]
  have hdrop20 : (v1BlockBytes magic one two ++ rest).drop 20 = (one ++ two) ++ rest := by
    have h20 : (magic ++ leU64 (one.length + two.length) ++
        leU32 (crc32 (leU64 (one.length + two.length)))).length = 20 := by
      simp [leU64_length, leU32_length]
      omega
    rw [hassoc, ← List.append_assoc, ← List.append_assoc]
    rw [show (20:Nat) = (magic ++ leU64 (one.length + two.length) ++
      leU32 (crc32 (leU64 (one.length + two.length)))).length from h20.symm]
    rw [List.drop_append_of_le_length (by omega), List.drop_length]
    simp
  have htakeBody : ((v1BlockBytes magic one two ++ rest).drop 20).take
      (one.length + two.length) = one ++ two := by
    rw [hdrop20, List.take_append_of_le_length (by simp), List.take_of_length_le (by simp)]
  rw [htakeBody]
  rw [if_neg (by simp)]
  have hdropEnd : (v1BlockBytes magic one two ++ rest).drop
      (20 + (one.length + two.length)) = rest := by
    have h20s : (magic ++ leU64 (one.length + two.length) ++
        leU32 (crc32 (leU64 (one.length + two.length))) ++ (one ++ two)).length =
        20 + (one.length + two.length) := by
      simp [leU64_length, leU32_length]
      omega
    rw [hassoc, ← List.append_assoc, ← List.append_assoc, ← List.append_assoc]
    rw [show 20 + (one.length + two.length) = (magic ++ leU64 (one.length + two.length) ++
      leU32 (crc32 (leU64 (one.length + two.length))) ++ (one ++ two)).length from h20s.symm]
    rw [List.drop_append_of_le_length (by omega), List.drop_length]
    simp
  rw [hdropEnd]



theorem readSizes_append (sizes : List Nat) (rest : List Nat) (e : ErrSt)
    (h : ∀ x ∈ sizes, x < 2 ^ 64) :
    readSizes sizes.length ⟨(sizes.map appendUVarint).flatten ++ rest, e⟩ =
      (sizes, ⟨rest, e⟩) := by
  induction sizes with
  | nil => simp [readSizes]
  | cons x xs ih =>
    have hx : x < 2 ^ 64 := h x (List.mem_cons_self _ _)
    show readSizes (xs.length + 1) _ = _
    rw [readSizes]
    have happ : ((x :: xs).map appendUVarint).flatten ++ rest =
        appendUVarint x ++ ((xs.map appendUVarint).flatten ++ rest) := by
      simp
    rw [happ, bpReadUVarint_append _ _ _ hx]
    rw [ih (fun y hy => h y (List.mem_cons_of_mem _ hy))]

theorem buildItems_last_sum (sizes : List Int) :
    ∀ (off : Int), sizes ≠ [] →
      ((buildItems sizes off).getLastD (0, 0)).1 +
        ((buildItems sizes off).getLastD (0, 0)).2 = off + sizes.sum := by
  induction sizes with
  | nil => intro off h; exact absurd rfl h
  | cons s ss ih =>
    intro off _
    rw [buildItems]
    cases hss : ss with
    | nil =>
      simp [buildItems]
    | cons t ts =>
      have hne : ss ≠ [] := by simp [hss]
      rw [← hss]
      have hlast : ((off, s) :: buildItems ss (off + s)).getLastD (0, 0) =
          (buildItems ss (off + s)).getLastD (0, 0) := by
        have : buildItems ss (off + s) ≠ [] := by
          rw [hss, buildItems]
          simp
        cases hb : buildItems ss (off + s) with
        | nil => exact absurd hb this
        | cons u us => simp [List.getLastD]
      rw [hlast, ih _ hne]
      simp
      ring

theorem extractItems_flatten (G : List (List Nat)) :
    ∀ (pre : List Nat),
      extractItems (pre ++ G.flatten)
        (buildItems (G.map (fun r => (r.length : Int))) (pre.length : Int)) = G := by
  induction G with
  | nil => intro pre; simp [extractItems, buildItems]
  | cons g gs ih =>
    intro pre
    rw [List.map_cons, buildItems, extractItems, List.map_cons]
    congr 1
    · show ((pre ++ (g :: gs).flatten).drop ((pre.length : Int)).toNat).take
        ((g.length : Int)).toNat = g
      simp only [Int.toNat_natCast]
      rw [List.drop_append_of_le_length (by simp), List.drop_length]
      simp only [List.nil_append, List.flatten_cons]
      rw [List.take_append_of_le_length (by simp), List.take_of_length_le (by simp)]
    · have hpre : pre ++ (g :: gs).flatten = (pre ++ g) ++ gs.flatten := by
        simp
      have hoff : (pre.length : Int) + (g.length : Int) = ((pre ++ g).length : Int) := by
        simp
      rw [hpre, hoff]
      show extractItems ((pre ++ g) ++ gs.flatten)
        (buildItems (gs.map (fun r => (r.length : Int))) (((pre ++ g).length : Int))) = gs
      exact ih (pre ++ g)

theorem sizesBytes_length_ge (items : List (List Nat)) :
    items.length ≤ (sizesBytes items).length := by
  unfold sizesBytes
  induction items with
  | nil => simp
  | cons g gs ih =>
    simp only [List.map_cons, List.flatten_cons, List.length_append]
    have := appendUVarintGo_length_pos 10 (g.length % 2 ^ 32)
    show gs.length + 1 ≤ _
    have hh : (appendUVarint (g.length % 2 ^ 32)).length ≥ 1 := this
    simp only [List.length_cons] at ih ⊢
    omega



theorem flatten_length_int (items : List (List Nat)) :
    (items.map (fun r => (r.length : Int))).sum = (items.flatten.length : Int) := by
  induction items with
  | nil => simp
  | cons g gs ih => simp [ih]

theorem readPackedBlock_ok (enc : List Nat → List Nat)
    (dec? : Option (List Nat → List Nat)) (items : List (List Nat))
    (hne : items ≠ [])
    (hlen31 : ∀ r ∈ items, r.length < 2 ^ 31)
    (hcount : items.length < 2 ^ 32)
    (hmatch : applyDec dec? (enc items.flatten) = items.flatten) :
    readPackedBlock dec? (packedListBytes enc items) = .ok items := by
  have hc : crc32 (varintRegion items) < 2 ^ 32 := crc32_lt _
  have hassoc : packedListBytes enc items =
      leU32 (crc32 (varintRegion items)) ++ (varintRegion items ++ enc items.flatten) := by
    unfold packedListBytes packedHeaderBytes
    simp [List.append_assoc]
  have hassoc2 : packedListBytes enc items =
      leU32 (crc32 (varintRegion items)) ++
        (appendUVarint items.length ++ (sizesBytes items ++ enc items.flatten)) := by
    unfold packedListBytes packedHeaderBytes varintRegion
    simp [List.append_assoc]
  rw [hassoc2]
  simp only [readPackedBlock]
  rw [bpReadLE32_leU32 _ _ _ hc]
  simp only [bne_self_eq_false, Bool.false_eq_true, if_false]
  rw [bpReadUVarint_append _ _ _ (by exact hcount.trans_le (by norm_num))]
  have hsbeq : sizesBytes items =
      ((items.map (fun r => r.length % 2 ^ 32)).map appendUVarint).flatten := by
    unfold sizesBytes
    rw [List.map_map]
    rfl
  have hrs : readSizes items.length ⟨sizesBytes items ++ enc items.flatten, none⟩ =
      (items.map (fun r => r.length % 2 ^ 32), ⟨enc items.flatten, none⟩) := by
    have hl : items.length = (items.map (fun r => r.length % 2 ^ 32)).length := by
      simp
    rw [hsbeq, hl]
    exact readSizes_append _ _ _ (by
      intro x hx
      simp at hx
      obtain ⟨r, _, hr⟩ := hx
      have : r.length % 2 ^ 32 < 2 ^ 32 := Nat.mod_lt _ (by norm_num)
      omega)
  rw [hrs]
  simp only
  have hcond1 : (items.length == 0 || decide (items.length ≥
      (leU32 (crc32 (varintRegion items)) ++ (appendUVarint items.length ++
        (sizesBytes items ++ enc items.flatten))).length)) = false := by
    have h0 : items.length ≠ 0 := by
      simpa using hne
    have hge := sizesBytes_length_ge items
    have hpos := appendUVarintGo_length_pos 10 items.length
    simp only [List.length_append, leU32_length]
    simp [h0]
    show items.length < _
    have : (appendUVarint items.length).length ≥ 1 := hpos
    omega
  rw [hcond1]
  simp only [Bool.false_eq_true, if_false]
  have htakev : (appendUVarint items.length ++ (sizesBytes items ++ enc items.flatten)).take
      ((appendUVarint items.length ++ (sizesBytes items ++ enc items.flatten)).length -
        (enc items.flatten).length) = varintRegion items := by
    rw [← List.append_assoc]
    have hlen2 : (appendUVarint items.length ++ sizesBytes items ++ enc items.flatten).length -
        (enc items.flatten).length = (appendUVarint items.length ++ sizesBytes items).length := by
      simp only [List.length_append, List.append_assoc]
      omega
    rw [hlen2, List.take_append_of_le_length le_rfl, List.take_length]
    rfl
  rw [htakev]
  simp only [bne_self_eq_false, Bool.false_eq_true, if_false]
  have hsz : (items.map (fun r => r.length % 2 ^ 32)).map asInt32 =
      items.map (fun r => (r.length : Int)) := by
    rw [List.map_map]
    apply List.map_congr_left
    intro r hr
    have h31 := hlen31 r hr
    show asInt32 (r.length % 2 ^ 32) = (r.length : Int)
    unfold asInt32
    have hm : r.length % 2 ^ 32 = r.length := Nat.mod_eq_of_lt (by omega)
    rw [hm, Nat.mod_eq_of_lt (by omega)]
    rw [if_pos (by exact_mod_cast h31)]
  rw [hsz, hmatch]
  have hsne : items.map (fun r => (r.length : Int)) ≠ [] := by
    simpa using hne
  have hback := buildItems_last_sum (items.map (fun r => (r.length : Int))) 0 hsne
  rw [flatten_length_int] at hback
  have hjunk : ((((buildItems (items.map (fun r => (r.length : Int))) 0).getLastD (0, 0)).1 +
      ((buildItems (items.map (fun r => (r.length : Int))) 0).getLastD (0, 0)).2 !=
        ((items.flatten.length : Nat) : Int)) = false) := by
    rw [hback]
    simp
  rw [hjunk]
  simp only [Bool.false_eq_true, if_false, bne_self_eq_false]
  have hext := extractItems_flatten items ([] : List Nat)
  simp only [List.nil_append, List.length_nil, Nat.cast_zero] at hext
  rw [hext]



theorem magicPacked_length : magicPacked.length = 8 := by decide

theorem magicUnpacked_length : magicUnpacked.length = 8 := by decide

theorem packedBlockBytes_length_ge (enc : List Nat → List Nat)
    (g : List (List Nat)) : 20 ≤ (packedBlockBytes enc g).length := by
  unfold packedBlockBytes
  rw [v1BlockBytes_length, magicPacked_length]
  omega

theorem blocks_flatten_length_ge (enc : List Nat → List Nat)
    (G : List (List (List Nat))) :
    G.length ≤ ((G.map (packedBlockBytes enc)).flatten).length := by
  induction G with
  | nil => simp
  | cons g gs ih =>
    simp only [List.map_cons, List.flatten_cons, List.length_append, List.length_cons]
    have := packedBlockBytes_length_ge enc g
    omega

theorem readPackedAllGo_blocks (enc : List Nat → List Nat)
    (dec? : Option (List Nat → List Nat)) (G : List (List (List Nat))) :
    ∀ (fuel : Nat) (acc : List (List Nat)),
      (∀ g ∈ G, g ≠ [] ∧ (∀ r ∈ g, r.length < 2 ^ 31) ∧ g.length < 2 ^ 32 ∧
        applyDec dec? (enc g.flatten) = g.flatten ∧
        (packedListBytes enc g).length ≤ 2 ^ 29) →
      G.length + 1 ≤ fuel →
      readPackedAllGo dec? fuel ((G.map (packedBlockBytes enc)).flatten) acc =
        (acc ++ G.flatten, none) := by
  induction G with
  | nil =>
    intro fuel acc _ hfuel
    obtain ⟨f, rfl⟩ : ∃ f, fuel = f + 1 := ⟨fuel - 1, by omega⟩
    simp [readPackedAllGo, baseScan]
  | cons g gs ih =>
    intro fuel acc hwf hfuel
    obtain ⟨f, rfl⟩ : ∃ f, fuel = f + 1 := ⟨fuel - 1, by omega⟩
    obtain ⟨hne, hlen31, hcount, hmatch, hsize⟩ := hwf g (List.mem_cons_self _ _)
    have hflat : ((g :: gs).map (packedBlockBytes enc)).flatten =
        v1BlockBytes magicPacked (packedHeaderBytes g) (enc g.flatten) ++
          ((gs.map (packedBlockBytes enc)).flatten) := by
      simp [packedBlockBytes]
    have hs : (packedHeaderBytes g).length + (enc g.flatten).length ≤ 2 ^ 29 := by
      have hpll : (packedListBytes enc g).length =
          (packedHeaderBytes g).length + (enc g.flatten).length := by
        simp [packedListBytes]
      omega
    have hpl : packedHeaderBytes g ++ enc g.flatten = packedListBytes enc g := rfl
    simp only [readPackedAllGo, hflat, baseScan_block _ _ _ _ magicPacked_length hs,
      hpl, readPackedBlock_ok enc dec? g hne hlen31 hcount hmatch]
    rw [ih f (acc ++ g) (fun x hx => hwf x (List.mem_cons_of_mem _ hx)) (by simp at hfuel ⊢; omega)]
    simp

theorem readPackedAll_blocks (enc : List Nat → List Nat)
    (dec? : Option (List Nat → List Nat)) (G : List (List (List Nat)))
    (hwf : ∀ g ∈ G, g ≠ [] ∧ (∀ r ∈ g, r.length < 2 ^ 31) ∧ g.length < 2 ^ 32 ∧
      applyDec dec? (enc g.flatten) = g.flatten ∧
      (packedListBytes enc g).length ≤ 2 ^ 29) :
    readPackedAll dec? ((G.map (packedBlockBytes enc)).flatten) = (G.flatten, none) := by
  unfold readPackedAll
  rw [readPackedAllGo_blocks enc dec? G _ [] hwf
    (by have := blocks_flatten_length_ge enc G; omega)]
  simp

theorem readUnpackedAllGo_blocks (enc : List Nat → List Nat)
    (dec? : Option (List Nat → List Nat)) (R : List (List Nat)) :
    ∀ (fuel : Nat) (acc : List (List Nat)),
      (∀ r ∈ R, applyDec dec? (enc r) = r ∧ (enc r).length ≤ 2 ^ 29) →
      R.length + 1 ≤ fuel →
      readUnpackedAllGo dec? fuel (unpackedFileBytes enc R) acc =
        (acc ++ R, none) := by
  induction R with
  | nil =>
    intro fuel acc _ hfuel
    obtain ⟨f, rfl⟩ : ∃ f, fuel = f + 1 := ⟨fuel - 1, by omega⟩
    simp [readUnpackedAllGo, unpackedFileBytes, baseScan]
  | cons r rs ih =>
    intro fuel acc hwf hfuel
    obtain ⟨f, rfl⟩ : ∃ f, fuel = f + 1 := ⟨fuel - 1, by omega⟩
    obtain ⟨hmatch, hsize⟩ := hwf r (List.mem_cons_self _ _)
    have hflat : unpackedFileBytes enc (r :: rs) =
        v1BlockBytes magicUnpacked (enc r) [] ++ unpackedFileBytes enc rs := by
      simp [unpackedFileBytes]
    simp only [readUnpackedAllGo, hflat,
      baseScan_block magicUnpacked (enc r) [] (unpackedFileBytes enc rs)
        magicUnpacked_length (by simp; omega),
      List.append_nil, hmatch]
    rw [ih f (acc ++ [r]) (fun x hx => hwf x (List.mem_cons_of_mem _ hx)) (by simp at hfuel ⊢; omega)]
    simp

theorem unpackedFile_length_ge (enc : List Nat → List Nat) (R : List (List Nat)) :
    R.length ≤ (unpackedFileBytes enc R).length := by
  induction R with
  | nil => simp [unpackedFileBytes]
  | cons r rs ih =>
    have h1 : unpackedFileBytes enc (r :: rs) =
        v1BlockBytes magicUnpacked (enc r) [] ++ unpackedFileBytes enc rs := by
      simp [unpackedFileBytes]
    rw [h1, List.length_append, v1BlockBytes_length, magicUnpacked_length]
    simp only [List.length_cons]
    omega

theorem readUnpackedAll_file (enc : List Nat → List Nat)
    (dec? : Option (List Nat → List Nat)) (R : List (List Nat))
    (hwf : ∀ r ∈ R, applyDec dec? (enc r) = r ∧ (enc r).length ≤ 2 ^ 29) :
    readUnpackedAll dec? (unpackedFileBytes enc R) = (R, none) := by
  unfold readUnpackedAll
  rw [readUnpackedAllGo_blocks enc dec? R _ [] hwf
    (by have := unpackedFile_length_ge enc R; omega)]
  simp



theorem asInt32_of_lt (n : Nat) (h : n < 2 ^ 31) : asInt32 n = (n : Int) := by
  unfold asInt32
  rw [Nat.mod_eq_of_lt (by omega)]
  rw [if_pos (by exact_mod_cast h)]

theorem mem_length_le_flatten (g : List (List Nat)) (r : List Nat) (hr : r ∈ g) :
    r.length ≤ g.flatten.length := by
  induction g with
  | nil => cases hr
  | cons x xs ih =>
    rcases List.mem_cons.mp hr with h | h
    · subst h
      simp
    · have hih := ih h
      simp only [List.flatten_cons, List.length_append]
      omega

theorem sizesBytes_length_le (g : List (List Nat)) :
    (sizesBytes g).length ≤ 5 * g.length := by
  unfold sizesBytes
  induction g with
  | nil => simp
  | cons x xs ih =>
    simp only [List.map_cons, List.flatten_cons, List.length_append, List.length_cons]
    have h5 : (appendUVarint (x.length % 2 ^ 32)).length ≤ 5 := by
      apply appendUVarintGo_length_le
      · calc x.length % 2 ^ 32 < 2 ^ 32 := Nat.mod_lt _ (by norm_num)
          _ ≤ 128 ^ 5 := by norm_num
      · norm_num
    omega

theorem pwWrite_eq_flush (mI mB : Int) (s : PWState) (item : List Nat)
    (hsz : ¬ asInt32 item.length > mB)
    (hfl : (s.pending.length : Int) + 1 > mI ∨
      asInt32 (s.pending.flatten.length + item.length) > mB) :
    pwWrite mI mB s item = (⟨[item], s.flushed ++ [s.pending], s.err⟩, true) := by
  unfold pwWrite pwFlushIfFull
  rw [if_neg hsz, if_pos hfl]
  simp

theorem pwWrite_eq_buffer (mI mB : Int) (s : PWState) (item : List Nat)
    (hsz : ¬ asInt32 item.length > mB)
    (hfl : ¬ ((s.pending.length : Int) + 1 > mI ∨
      asInt32 (s.pending.flatten.length + item.length) > mB))
    (hcap : s.pending.length ≠ 2 ^ 32 - 1) :
    pwWrite mI mB s item = ({ s with pending := s.pending ++ [item] }, true) := by
  unfold pwWrite pwFlushIfFull
  rw [if_neg hsz, if_neg hfl]
  simp only [beq_iff_eq]
  rw [if_neg (by omega)]

theorem pwWrite_ok (mI mB : Nat) (hI : 1 ≤ mI) (hI2 : mI < 2 ^ 32 - 1)
    (hB : mB ≤ 2 ^ 28) (s : PWState) (item : List Nat)
    (hp1 : s.pending.length ≤ mI) (hp2 : s.pending.flatten.length ≤ mB)
    (hitem : item.length ≤ mB) :
    (pwWrite (mI : Int) (mB : Int) s item).2 = true ∧
    (pwWrite (mI : Int) (mB : Int) s item).1.err = s.err ∧
    (pwWrite (mI : Int) (mB : Int) s item).1.pending.length ≤ mI ∧
    (pwWrite (mI : Int) (mB : Int) s item).1.pending.flatten.length ≤ mB ∧
    (pwWrite (mI : Int) (mB : Int) s item).1.pending ≠ [] ∧
    (pwWrite (mI : Int) (mB : Int) s item).1.flushed.flatten ++
      (pwWrite (mI : Int) (mB : Int) s item).1.pending =
      (s.flushed.flatten ++ s.pending) ++ [item] ∧
    (∀ g ∈ (pwWrite (mI : Int) (mB : Int) s item).1.flushed,
      g ∈ s.flushed ∨ pwGood mI mB g) := by
  have hitem32 : asInt32 item.length = (item.length : Int) :=
    asInt32_of_lt _ (by omega)
  have hcheck1 : ¬ asInt32 item.length > (mB : Int) := by
    rw [hitem32]
    exact_mod_cast Nat.not_lt.mpr hitem
  have hsum32 : asInt32 (s.pending.flatten.length + item.length) =
      ((s.pending.flatten.length + item.length : Nat) : Int) :=
    asInt32_of_lt _ (by omega)
  by_cases hfl : (s.pending.length : Int) + 1 > (mI : Int) ∨
      asInt32 (s.pending.flatten.length + item.length) > (mB : Int)
  · rw [pwWrite_eq_flush _ _ _ _ hcheck1 hfl]
    have hpend_ne : s.pending ≠ [] := by
      intro hcon
      rcases hfl with h | h
      · rw [hcon] at h
        simp at h
        omega
      · rw [hsum32] at h
        rw [hcon] at h
        simp at h
        omega
    have hgood : pwGood mI mB s.pending := by
      refine ⟨?_, hp1, hp2⟩
      cases hsp : s.pending with
      | nil => exact absurd hsp hpend_ne
      | cons a b => simp
    refine ⟨rfl, rfl, by simpa using hI, by simpa using hitem, by simp, by simp, ?_⟩
    intro g hg
    simp at hg
    rcases hg with h | h
    · exact Or.inl h
    · subst h
      exact Or.inr hgood
  · push_neg at hfl
    obtain ⟨hn1, hn2⟩ := hfl
    have hlen_le : s.pending.length + 1 ≤ mI := by
      have hc : (s.pending.length : Int) + 1 ≤ (mI : Int) := hn1
      exact_mod_cast hc
    have hbytes_le : s.pending.flatten.length + item.length ≤ mB := by
      rw [hsum32] at hn2
      exact_mod_cast hn2
    rw [pwWrite_eq_buffer _ _ _ _ hcheck1 (by push_neg; exact ⟨hn1, hn2⟩)
      (by omega)]
    refine ⟨rfl, rfl, by simpa using hlen_le, by simpa using hbytes_le, by simp, by simp, ?_⟩
    intro g hg
    exact Or.inl hg

theorem pwFoldl_spec (mI mB : Nat) (hI : 1 ≤ mI) (hI2 : mI < 2 ^ 32 - 1)
    (hB : mB ≤ 2 ^ 28) (R : List (List Nat)) :
    ∀ (s : PWState),
      s.pending.length ≤ mI → s.pending.flatten.length ≤ mB →
      (∀ r ∈ R, r.length ≤ mB) →
      (R.foldl (fun s r => (pwWrite (mI : Int) (mB : Int) s r).1) s).err = s.err ∧
      (R.foldl (fun s r => (pwWrite (mI : Int) (mB : Int) s r).1) s).pending.length ≤ mI ∧
      (R.foldl (fun s r => (pwWrite (mI : Int) (mB : Int) s r).1) s).pending.flatten.length ≤ mB ∧
      (R.foldl (fun s r => (pwWrite (mI : Int) (mB : Int) s r).1) s).flushed.flatten ++
        (R.foldl (fun s r => (pwWrite (mI : Int) (mB : Int) s r).1) s).pending =
        (s.flushed.flatten ++ s.pending) ++ R ∧
      (∀ g ∈ (R.foldl (fun s r => (pwWrite (mI : Int) (mB : Int) s r).1) s).flushed,
        g ∈ s.flushed ∨ pwGood mI mB g) ∧
      (R ≠ [] → (R.foldl (fun s r => (pwWrite (mI : Int) (mB : Int) s r).1) s).pending ≠ []) := by
  induction R with
  | nil =>
    intro s h1 h2 _
    refine ⟨rfl, h1, h2, by simp, fun g hg => Or.inl hg, fun h => absurd rfl h⟩
  | cons r rs ih =>
    intro s h1 h2 hall
    have hr : r.length ≤ mB := hall r (List.mem_cons_self _ _)
    obtain ⟨he, herr, hp1, hp2, hne, hcat, hgroups⟩ :=
      pwWrite_ok mI mB hI hI2 hB s r h1 h2 hr
    simp only [List.foldl_cons]
    obtain ⟨ih1, ih2, ih3, ih4, ih5, ih6⟩ :=
      ih (pwWrite (mI : Int) (mB : Int) s r).1 hp1 hp2
        (fun x hx => hall x (List.mem_cons_of_mem _ hx))
    refine ⟨by rw [ih1, herr], ih2, ih3, ?_, ?_, ?_⟩
    · rw [ih4, hcat]
      simp
    · intro g hg
      rcases ih5 g hg with h | h
      · rcases hgroups g h with h2g | h2g
        · exact Or.inl h2g
        · exact Or.inr h2g
      · exact Or.inr h
    · intro _
      cases hrs : rs with
      | nil =>
        subst hrs
        simp only [List.foldl_nil]
        exact hne
      | cons a b =>
        subst hrs
        exact ih6 (by simp)

theorem pwWriteAll_spec (mI mB : Nat) (hI : 1 ≤ mI) (hI2 : mI < 2 ^ 32 - 1)
    (hB : mB ≤ 2 ^ 28) (R : List (List Nat)) (hall : ∀ r ∈ R, r.length ≤ mB) :
    (pwWriteAll (mI : Int) (mB : Int) R).err = none ∧
    (pwWriteAll (mI : Int) (mB : Int) R).pending.length ≤ mI ∧
    (pwWriteAll (mI : Int) (mB : Int) R).pending.flatten.length ≤ mB ∧
    (pwWriteAll (mI : Int) (mB : Int) R).flushed.flatten ++
      (pwWriteAll (mI : Int) (mB : Int) R).pending = R ∧
    (∀ g ∈ (pwWriteAll (mI : Int) (mB : Int) R).flushed, pwGood mI mB g) ∧
    (R ≠ [] → (pwWriteAll (mI : Int) (mB : Int) R).pending ≠ []) := by
  obtain ⟨h1, h2, h3, h4, h5, h6⟩ :=
    pwFoldl_spec mI mB hI hI2 hB R pwInit (by simp [pwInit]) (by simp [pwInit]) hall
  refine ⟨h1, h2, h3, by simpa [pwInit] using h4, ?_, h6⟩
  intro g hg
  rcases h5 g hg with h | h
  · simp [pwInit] at h
  · exact h



theorem packedListBytes_length_le (enc : List Nat → List Nat)
    (g : List (List Nat)) (mI EB : Nat)
    (hcount : g.length ≤ mI) (hc32 : g.length < 2 ^ 32)
    (hencg : (enc g.flatten).length ≤ EB) :
    (packedListBytes enc g).length ≤ 9 + 5 * mI + EB := by
  unfold packedListBytes packedHeaderBytes varintRegion
  have hcv : (appendUVarint g.length).length ≤ 5 := by
    apply appendUVarintGo_length_le
    · calc g.length < 2 ^ 32 := hc32
        _ ≤ 128 ^ 5 := by norm_num
    · norm_num
  have hsz := sizesBytes_length_le g
  simp only [List.length_append, leU32_length]
  omega

theorem roundtrip_packed (enc : List Nat → List Nat)
    (dec? : Option (List Nat → List Nat)) (mI mB EB : Nat)
    (R : List (List Nat))
    (hI : 1 ≤ mI) (hI2 : mI < 2 ^ 32 - 1) (hB : mB ≤ 2 ^ 28)
    (henc : ∀ x : List Nat, x.length ≤ mB → (enc x).length ≤ EB)
    (hbudget : 9 + 5 * mI + EB ≤ 2 ^ 29)
    (hmatch : ∀ x : List Nat, applyDec dec? (enc x) = x)
    (hall : ∀ r ∈ R, r.length ≤ mB)
    (hne : R ≠ []) :
    readPackedAll dec? (packedFileBytes enc (mI : Int) (mB : Int) R) = (R, none) := by
  obtain ⟨herr, hp1, hp2, hcat, hgood, hpne⟩ :=
    pwWriteAll_spec mI mB hI hI2 hB R hall
  have hG : (pwClose (pwWriteAll (mI : Int) (mB : Int) R)).flushed =
      (pwWriteAll (mI : Int) (mB : Int) R).flushed ++
        [(pwWriteAll (mI : Int) (mB : Int) R).pending] := rfl
  have hfile : packedFileBytes enc (mI : Int) (mB : Int) R =
      (((pwWriteAll (mI : Int) (mB : Int) R).flushed ++
        [(pwWriteAll (mI : Int) (mB : Int) R).pending]).map
          (packedBlockBytes enc)).flatten := by
    unfold packedFileBytes
    rw [hG]
  rw [hfile]
  have hwf : ∀ g ∈ (pwWriteAll (mI : Int) (mB : Int) R).flushed ++
      [(pwWriteAll (mI : Int) (mB : Int) R).pending],
      g ≠ [] ∧ (∀ r ∈ g, r.length < 2 ^ 31) ∧ g.length < 2 ^ 32 ∧
      applyDec dec? (enc g.flatten) = g.flatten ∧
      (packedListBytes enc g).length ≤ 2 ^ 29 := by
    intro g hg
    have hbounds : g.length ≤ mI ∧ g.flatten.length ≤ mB ∧ g ≠ [] := by
      rcases List.mem_append.mp hg with h | h
      · obtain ⟨hg1, hg2, hg3⟩ := hgood g h
        exact ⟨hg2, hg3, by
          cases hc : g with
          | nil => rw [hc] at hg1; simp at hg1
          | cons a b => simp⟩
      · have hgp : g = (pwWriteAll (mI : Int) (mB : Int) R).pending := by
          simpa using h
        subst hgp
        exact ⟨hp1, hp2, hpne hne⟩
    obtain ⟨hb1, hb2, hb3⟩ := hbounds
    refine ⟨hb3, ?_, by omega, hmatch _, ?_⟩
    · intro r hr
      have := mem_length_le_flatten g r hr
      omega
    · have := packedListBytes_length_le enc g mI EB hb1 (by omega) (henc _ hb2)
      omega
  rw [readPackedAll_blocks enc dec? _ hwf]
  have hfl : ((pwWriteAll (mI : Int) (mB : Int) R).flushed ++
      [(pwWriteAll (mI : Int) (mB : Int) R).pending]).flatten = R := by
    rw [List.flatten_append]
    simpa using hcat
  rw [hfl]



theorem crReadChunk_some (r : ReadRes) (e e' : ErrSt) (c : Chunk)
    (h : crReadChunk r e = (some c, e')) :
    e' = e ∧ r.1 = none ∧ r.2.length = 32768 ∧
    c.magic = cMagic r.2 ∧ c.index = cIndex r.2 ∧ c.total = cTotal r.2 ∧
    cSize r.2 ≤ 32740 ∧ cCsum r.2 = crc32 ((r.2.drop 12).take (16 + cSize r.2)) := by
  unfold crReadChunk at h
  by_cases h1 : (r.1 != none || r.2.length == 0) = true
  · rw [if_pos h1] at h
    cases h
  · rw [if_neg h1] at h
    by_cases h2 : (r.2.length != 32768) = true
    · rw [if_pos h2] at h
      cases h
    · rw [if_neg h2] at h
      by_cases h3 : readLE32 (r.2.drop 16) > 32740
      · rw [if_pos h3] at h
        cases h
      · rw [if_neg h3] at h
        by_cases h4 : (readLE32 (r.2.drop 8) !=
            crc32 ((r.2.drop 12).take (16 + readLE32 (r.2.drop 16)))) = true
        · rw [if_pos h4] at h
          cases h
        · rw [if_neg h4] at h
          simp only [Prod.mk.injEq, Option.some.injEq] at h
          obtain ⟨hc, he⟩ := h
          have hr1 : r.1 = none := by
            simp at h1
            exact h1.1
          have hlen : r.2.length = 32768 := by
            simpa using h2
          refine ⟨he.symm, hr1, hlen, ?_, ?_, ?_, by simpa using h3, by simpa using h4⟩
          · rw [← hc]
            rfl
          · rw [← hc]
            rfl
          · rw [← hc]
            rfl

theorem crReadChunk_eq_ok (d : List Nat) (e : ErrSt)
    (hlen : d.length = 32768) (hsz : cSize d ≤ 32740)
    (hcrc : cCsum d = crc32 ((d.drop 12).take (16 + cSize d))) :
    crReadChunk (none, d) e =
      (some ⟨cMagic d, cCsum d, readLE32 (d.drop 12), cSize d, cTotal d,
        cIndex d, (d.drop 28).take (cSize d)⟩, e) := by
  unfold crReadChunk
  rw [if_neg (by simp [hlen])]
  rw [if_neg (by simp [hlen])]
  rw [if_neg (by show ¬ readLE32 (d.drop 16) > 32740; unfold cSize at hsz; omega)]
  rw [if_neg (by
    show ¬ (readLE32 (d.drop 8) != crc32 ((d.drop 12).take (16 + readLE32 (d.drop 16)))) = true
    unfold cCsum cSize at hcrc
    simp [hcrc])]
  rfl

theorem crReadChunk_eq_size_err (d : List Nat) (e : ErrSt)
    (hlen : d.length = 32768) (hsz : cSize d > 32740) :
    crReadChunk (none, d) e = (none, esSet e "Invalid chunk size") := by
  unfold crReadChunk
  rw [if_neg (by simp [hlen])]
  rw [if_neg (by simp [hlen])]
  rw [if_pos (by show readLE32 (d.drop 16) > 32740; unfold cSize at hsz; omega)]

theorem crReadChunk_eq_crc_err (d : List Nat) (e : ErrSt)
    (hlen : d.length = 32768) (hsz : cSize d ≤ 32740)
    (hcrc : cCsum d ≠ crc32 ((d.drop 12).take (16 + cSize d))) :
    crReadChunk (none, d) e = (none, esSet e "Chunk checksum mismatch") := by
  unfold crReadChunk
  rw [if_neg (by simp [hlen])]
  rw [if_neg (by simp [hlen])]
  rw [if_neg (by show ¬ readLE32 (d.drop 16) > 32740; unfold cSize at hsz; omega)]
  rw [if_pos (by
    show (readLE32 (d.drop 8) != crc32 ((d.drop 12).take (16 + readLE32 (d.drop 16)))) = true
    unfold cCsum cSize at hcrc
    simpa using hcrc)]

theorem crScanGo_sound (src : List ReadRes) :
    ∀ (m0 : List Nat) (t0 cnt : Nat) (iov : List (List Nat)) (e' : ErrSt)
      (iov' : List (List Nat)) (rem : List ReadRes),
      crScanGo src none (some (m0, t0)) cnt iov = (true, e', iov', rem) →
      e' = none ∧ ∃ ds : List (List Nat), ds ≠ [] ∧
        src = ds.map (fun d => ((none : Option String), d)) ++ rem ∧
        (∀ k, (h : k < ds.length) → chunkGood m0 t0 (cnt + k) (ds.get ⟨k, h⟩)) := by
  induction src with
  | nil =>
    intro m0 t0 cnt iov e' iov' rem h
    cases h
  | cons r rest ih =>
    intro m0 t0 cnt iov e' iov' rem h
    rw [crScanGo] at h
    rcases hrc : crReadChunk r none with ⟨oc, e2⟩
    rw [hrc] at h
    cases oc with
    | none => cases h
    | some c =>
      obtain ⟨he2, hr1, hlen, hmagic, hindex, htotal, hsz, hcrc⟩ :=
        crReadChunk_some r none e2 c hrc
      subst he2
      simp only at h
      by_cases hm : (c.magic != m0) = true
      · rw [if_pos hm] at h
        cases h
      · rw [if_neg hm] at h
        by_cases hi : (c.index != cnt) = true
        · rw [if_pos hi] at h
          cases h
        · rw [if_neg hi] at h
          by_cases ht : (c.total != t0) = true
          · rw [if_pos ht] at h
            cases h
          · rw [if_neg ht] at h
            have hmeq : c.magic = m0 := by simpa using hm
            have hieq : c.index = cnt := by simpa using hi
            have hteq : c.total = t0 := by simpa using ht
            have hgood : chunkGood m0 t0 cnt r.2 := by
              refine ⟨hlen, by rw [← hmagic, hmeq], by rw [← hindex, hieq],
                by rw [← htotal, hteq], hsz, hcrc⟩
            have hr : r = ((none : Option String), r.2) := by
              cases r with
              | mk a b =>
                simp at hr1
                rw [hr1]
            by_cases hdone : (c.index + 1 == c.total) = true
            · rw [if_pos hdone] at h
              simp only [Prod.mk.injEq] at h
              obtain ⟨_, he, _, hrem⟩ := h
              refine ⟨he.symm, [r.2], by simp, ?_, ?_⟩
              · rw [← hrem]
                rw [hr]
                simp
              · intro k hk
                have hk0 : k = 0 := by simpa using hk
                subst hk0
                simpa using hgood
            · rw [if_neg hdone] at h
              obtain ⟨he', ⟨ds, hdne, hsrc, hds⟩⟩ := ih m0 t0 (cnt + 1) _ e' iov' rem h
              refine ⟨he', r.2 :: ds, by simp, ?_, ?_⟩
              · rw [hsrc]
                rw [hr]
                simp
              · intro k hk
                cases k with
                | zero => simpa using hgood
                | succ k2 =>
                  have hk2 : k2 < ds.length := by simpa using hk
                  have := hds k2 hk2
                  simp only [List.get_cons_succ]
                  have harith : cnt + (k2 + 1) = cnt + 1 + k2 := by omega
                  rw [harith]
                  exact this


theorem crScan_sound (src : List ReadRes) (e' : ErrSt)
    (iov' : List (List Nat)) (rem : List ReadRes)
    (h : crScan src none = (true, e', iov', rem)) :
    e' = none ∧ ∃ ds : List (List Nat), ds ≠ [] ∧
      src = ds.map (fun d => ((none : Option String), d)) ++ rem ∧
      (∀ k, (hk : k < ds.length) →
        chunkGood (cMagic (ds.get ⟨0, by omega⟩)) (cTotal (ds.get ⟨0, by omega⟩)) k
          (ds.get ⟨k, hk⟩)) := by
  unfold crScan at h
  rw [if_neg (by simp)] at h
  cases src with
  | nil => cases h
  | cons r rest =>
    rw [crScanGo] at h
    rcases hrc : crReadChunk r none with ⟨oc, e2⟩
    rw [hrc] at h
    cases oc with
    | none => cases h
    | some c =>
      obtain ⟨he2, hr1, hlen, hmagic, hindex, htotal, hsz, hcrc⟩ :=
        crReadChunk_some r none e2 c hrc
      subst he2
      simp only at h
      rw [if_neg (by simp)] at h
      by_cases hi : (c.index != 0) = true
      · rw [if_pos hi] at h
        cases h
      · rw [if_neg hi] at h
        rw [if_neg (by simp)] at h
        have hieq : c.index = 0 := by simpa using hi
        have hr : r = ((none : Option String), r.2) := by
          cases r with
          | mk a b =>
            simp at hr1
            rw [hr1]
        have hgood : chunkGood c.magic c.total 0 r.2 := by
          refine ⟨hlen, hmagic.symm, by rw [← hindex, hieq], htotal.symm, hsz, hcrc⟩
        by_cases hdone : (c.index + 1 == c.total) = true
        · rw [if_pos hdone] at h
          simp only [Prod.mk.injEq] at h
          obtain ⟨_, he, _, hrem⟩ := h
          refine ⟨he.symm, [r.2], by simp, ?_, ?_⟩
          · rw [← hrem, hr]
            simp
          · intro k hk
            have hk0 : k = 0 := by simpa using hk
            subst hk0
            simp only [List.get]
            rw [← hmagic, ← htotal]
            simpa using hgood
        · rw [if_neg hdone] at h
          obtain ⟨he', ⟨ds, hdne, hsrc, hds⟩⟩ := crScanGo_sound rest c.magic c.total 1 _ e' iov' rem h
          refine ⟨he', r.2 :: ds, by simp, ?_, ?_⟩
          · rw [hsrc, hr]
            simp
          · intro k hk
            cases k with
            | zero =>
              simp only [List.get]
              rw [← hmagic, ← htotal]
              simpa using hgood
            | succ k2 =>
              have hk2 : k2 < ds.length := by simpa using hk
              have hh := hds k2 hk2
              simp only [List.get_cons_succ, List.get]
              rw [← hmagic, ← htotal]
              have harith : k2 + 1 = 1 + k2 := by omega
              rw [harith]
              exact hh


theorem crScan_size_err (d : List Nat) (rest : List ReadRes)
    (hlen : d.length = 32768) (hsz : cSize d > 32740) :
    crScan (((none : Option String), d) :: rest) none =
      (false, some "Invalid chunk size", [], rest) := by
  unfold crScan
  rw [if_neg (by simp)]
  rw [crScanGo, crReadChunk_eq_size_err d none hlen hsz]
  rfl

theorem crScan_crc_err (d : List Nat) (rest : List ReadRes)
    (hlen : d.length = 32768) (hsz : cSize d ≤ 32740)
    (hcrc : cCsum d ≠ crc32 ((d.drop 12).take (16 + cSize d))) :
    crScan (((none : Option String), d) :: rest) none =
      (false, some "Chunk checksum mismatch", [], rest) := by
  unfold crScan
  rw [if_neg (by simp)]
  rw [crScanGo, crReadChunk_eq_crc_err d none hlen hsz hcrc]
  rfl

theorem crScan_index_err (d : List Nat) (rest : List ReadRes)
    (hlen : d.length = 32768) (hsz : cSize d ≤ 32740)
    (hcrc : cCsum d = crc32 ((d.drop 12).take (16 + cSize d)))
    (hidx : cIndex d ≠ 0) :
    crScan (((none : Option String), d) :: rest) none =
      (false, some "Wrong chunk index", [], rest) := by
  unfold crScan
  rw [if_neg (by simp)]
  rw [crScanGo, crReadChunk_eq_ok d none hlen hsz hcrc]
  simp only
  rw [if_neg (by simp)]
  rw [if_pos (by simpa using hidx)]
  rfl

theorem crScan_magic_err (d1 d2 : List Nat) (rest : List ReadRes)
    (hlen1 : d1.length = 32768) (hsz1 : cSize d1 ≤ 32740)
    (hcrc1 : cCsum d1 = crc32 ((d1.drop 12).take (16 + cSize d1)))
    (hidx1 : cIndex d1 = 0) (hnotdone : cIndex d1 + 1 ≠ cTotal d1)
    (hlen2 : d2.length = 32768) (hsz2 : cSize d2 ≤ 32740)
    (hcrc2 : cCsum d2 = crc32 ((d2.drop 12).take (16 + cSize d2)))
    (hmagic : cMagic d2 ≠ cMagic d1) :
    crScan (((none : Option String), d1) :: ((none : Option String), d2) :: rest) none =
      (false, some "Magic number changed in the middle of a chunk sequence",
        [(d1.drop 28).take (cSize d1)], rest) := by
  unfold crScan
  rw [if_neg (by simp)]
  rw [crScanGo, crReadChunk_eq_ok d1 none hlen1 hsz1 hcrc1]
  simp only
  rw [if_neg (by simp)]
  rw [if_neg (by simpa using hidx1)]
  rw [if_neg (by simp)]
  rw [if_neg (by simpa using hnotdone)]
  rw [crScanGo, crReadChunk_eq_ok d2 none hlen2 hsz2 hcrc2]
  simp only
  rw [if_pos (by simpa using hmagic)]
  rfl

theorem crScan_total_err (d1 d2 : List Nat) (rest : List ReadRes)
    (hlen1 : d1.length = 32768) (hsz1 : cSize d1 ≤ 32740)
    (hcrc1 : cCsum d1 = crc32 ((d1.drop 12).take (16 + cSize d1)))
    (hidx1 : cIndex d1 = 0) (hnotdone : cIndex d1 + 1 ≠ cTotal d1)
    (hlen2 : d2.length = 32768) (hsz2 : cSize d2 ≤ 32740)
    (hcrc2 : cCsum d2 = crc32 ((d2.drop 12).take (16 + cSize d2)))
    (hmagic : cMagic d2 = cMagic d1) (hidx2 : cIndex d2 = 1)
    (htotal : cTotal d2 ≠ cTotal d1) :
    crScan (((none : Option String), d1) :: ((none : Option String), d2) :: rest) none =
      (false, some "Wrong total chunk header",
        [(d1.drop 28).take (cSize d1)], rest) := by
  unfold crScan
  rw [if_neg (by simp)]
  rw [crScanGo, crReadChunk_eq_ok d1 none hlen1 hsz1 hcrc1]
  simp only
  rw [if_neg (by simp)]
  rw [if_neg (by simpa using hidx1)]
  rw [if_neg (by simp)]
  rw [if_neg (by simpa using hnotdone)]
  rw [crScanGo, crReadChunk_eq_ok d2 none hlen2 hsz2 hcrc2]
  simp only
  rw [if_neg (by simpa using hmagic)]
  rw [if_neg (by simp [hidx2])]
  rw [if_pos (by simpa using htotal)]
  rfl




theorem zigzag_lt (i : Int) (h1 : -(2 ^ 63) ≤ i) (h2 : i < 2 ^ 63) :
    zigzag i < 2 ^ 64 := by
  unfold zigzag
  split
  · have : i.toNat < 2 ^ 63 := by omega
    omega
  · have : (-i).toNat ≤ 2 ^ 63 := by omega
    omega

theorem bpReadVarint_zigzag (i : Int) (rest : List Nat) (e : ErrSt)
    (h1 : -(2 ^ 63) ≤ i) (h2 : i < 2 ^ 63) :
    bpReadVarint ⟨appendUVarint (zigzag i) ++ rest, e⟩ = (i, ⟨rest, e⟩) := by
  unfold bpReadVarint
  rw [bpReadUVarint_append _ _ _ (zigzag_lt i h1 h2)]
  simp only [Prod.mk.injEq]
  refine ⟨?_, trivial⟩
  by_cases hpos : 0 ≤ i
  · have hz : zigzag i = 2 * i.toNat := by
      unfold zigzag
      rw [if_pos hpos]
    rw [hz]
    rw [if_neg (by simp)]
    have hsh : (2 * i.toNat) >>> 1 = i.toNat := by
      rw [Nat.shiftRight_eq_div_pow]
      omega
    rw [hsh]
    unfold asInt64
    rw [Nat.mod_eq_of_lt (by omega)]
    rw [if_pos (by omega)]
    omega
  · have hm1 : 1 ≤ (-i).toNat := by omega
    have hz : zigzag i = 2 * (-i).toNat - 1 := by
      unfold zigzag
      rw [if_neg hpos]
    rw [hz]
    rw [if_pos (by simp; omega)]
    have hsh : (2 * (-i).toNat - 1) >>> 1 = (-i).toNat - 1 := by
      rw [Nat.shiftRight_eq_div_pow]
      omega
    rw [hsh]
    have hy : 2 ^ 64 - 1 - ((-i).toNat - 1) = 2 ^ 64 - (-i).toNat := by
      omega
    rw [hy]
    unfold asInt64
    have hb : (-i).toNat ≤ 2 ^ 63 := by omega
    rw [Nat.mod_eq_of_lt (by omega)]
    rw [if_neg (by omega)]
    omega

theorem encValue_ne_nil (v : HVal) : encValue v ≠ [] := by
  cases v <;> simp [encValue]

theorem readValueGo_encValue (v : HVal) (rest : List Nat) (f : Nat)
    (hwf : hvalWF v) :
    readValueGo (f + 2) ⟨encValue v ++ rest, none⟩ = (hvOf v, ⟨rest, none⟩) := by
  cases v with
  | vbool b =>
    show readValueGo (f + 2) ⟨1 :: ((if b then 1 else 0) :: rest), none⟩ = _
    rw [readValueGo]
    simp only
    cases b <;> simp [hvOf, hvInvalid]
  | vint i =>
    obtain ⟨h1, h2⟩ := hwf
    show readValueGo (f + 2) ⟨2 :: (appendUVarint (zigzag i) ++ rest), none⟩ = _
    rw [readValueGo]
    simp only [Nat.reduceBEq]
    rw [bpReadVarint_zigzag i rest none h1 h2]
    simp [hvOf, hvInvalid]
  | vuint u =>
    show readValueGo (f + 2) ⟨3 :: (appendUVarint u ++ rest), none⟩ = _
    rw [readValueGo]
    simp only [Nat.reduceBEq]
    rw [bpReadUVarint_append _ _ _ hwf]
    simp [hvOf, hvInvalid]
  | vstr s =>
    have hs31 : s.length < 2 ^ 31 := hwf
    have hgrp : encValue (.vstr s) ++ rest =
        4 :: ((3 :: appendUVarint s.length) ++ (s ++ rest)) := by
      simp [encValue]
    rw [hgrp, readValueGo]
    simp only [Nat.reduceBEq]
    have hinner : readValueGo (f + 1) ⟨3 :: (appendUVarint s.length ++ (s ++ rest)), none⟩ =
        ({ hvInvalid with u := s.length, type := 3 }, ⟨s ++ rest, none⟩) := by
      rw [readValueGo]
      simp only [Nat.reduceBEq]
      rw [bpReadUVarint_append _ _ _ (by omega)]
      simp [hvInvalid]
    have hcast : (3 :: appendUVarint s.length) ++ (s ++ rest) =
        3 :: (appendUVarint s.length ++ (s ++ rest)) := by simp
    rw [hcast, hinner]
    simp only [Bool.false_eq_true, if_false]
    rw [if_pos trivial]
    rw [if_pos (by decide : ((3 : Nat) == 3) = true)]
    rw [asInt32_of_lt _ hs31]
    rw [if_neg (by
      simp only [List.length_append]
      push_cast
      omega)]
    simp only [Int.toNat_natCast]
    rw [List.take_append_of_le_length le_rfl, List.take_length]
    rw [List.drop_append_of_le_length le_rfl, List.drop_length]
    simp [hvOf, hvInvalid]

theorem readValue_encValue (v : HVal) (rest : List Nat) (hwf : hvalWF v) :
    readValue ⟨encValue v ++ rest, none⟩ = (hvOf v, ⟨rest, none⟩) := by
  unfold readValue
  have hne := encValue_ne_nil v
  have hlen : 1 ≤ (encValue v).length := by
    cases hv : encValue v with
    | nil => exact absurd hv hne
    | cons a b => simp
  obtain ⟨f, hf⟩ : ∃ f, (⟨encValue v ++ rest, none⟩ : BP).data.length + 1 = f + 2 := by
    refine ⟨(encValue v ++ rest).length - 1, ?_⟩
    simp only [List.length_append]
    omega
  rw [hf]
  exact readValueGo_encValue v rest f hwf

theorem decodeHeaderLoop_enc (entries : List (List Nat × HVal)) :
    ∀ (rest : List Nat) (acc : List (List Nat × HV)),
      (∀ kv ∈ entries, kv.1.length < 2 ^ 31 ∧ hvalWF kv.2) →
      decodeHeaderLoop entries.length
        ⟨(entries.map (fun kv => encValue (.vstr kv.1) ++ encValue kv.2)).flatten ++ rest,
          none⟩ acc =
        (acc ++ entries.map (fun kv => (kv.1, hvOf kv.2)), none) := by
  induction entries with
  | nil =>
    intro rest acc _
    simp [decodeHeaderLoop]
  | cons kv tl ih =>
    intro rest acc hwf
    obtain ⟨hk, hv⟩ := hwf kv (List.mem_cons_self _ _)
    have hgrp : ((kv :: tl).map (fun kv => encValue (.vstr kv.1) ++ encValue kv.2)).flatten ++ rest =
        encValue (.vstr kv.1) ++ (encValue kv.2 ++
          ((tl.map (fun kv => encValue (.vstr kv.1) ++ encValue kv.2)).flatten ++ rest)) := by
      simp
    show decodeHeaderLoop (tl.length + 1) _ _ = _
    rw [decodeHeaderLoop, hgrp]
    rw [readValue_encValue (.vstr kv.1) _ (by exact hk)]
    simp only [hvOf, hvInvalid]
    rw [readValue_encValue kv.2 _ hv]
    simp only
    rw [ih _ (acc ++ [(kv.1, hvOf kv.2)]) (fun x hx => hwf x (List.mem_cons_of_mem _ hx))]
    rw [List.append_assoc]
    rfl

theorem decodeHeader_enc (entries : List (List Nat × HVal))
    (hn : entries.length < 2 ^ 31)
    (hwf : ∀ kv ∈ entries, kv.1.length < 2 ^ 31 ∧ hvalWF kv.2) :
    decodeHeader (encHeader entries) =
      (entries.map (fun kv => (kv.1, hvOf kv.2)), none) := by
  unfold decodeHeader encHeader
  rw [readValue_encValue (.vuint entries.length) _ (by
    show entries.length < 2 ^ 64
    omega)]
  simp only [hvOf, hvInvalid]
  rw [asInt32_of_lt _ hn]
  simp only [Int.toNat_natCast]
  have hre : (entries.map (fun kv => encValue (.vstr kv.1) ++ encValue kv.2)).flatten =
      (entries.map (fun kv => encValue (.vstr kv.1) ++ encValue kv.2)).flatten ++ [] := by
    simp
  rw [hre, decodeHeaderLoop_enc entries [] [] hwf]
  rfl




theorem readPackedBlock_crcRegion (dec? : Option (List Nat → List Nat))
    (block : List Nat) (items : List (List Nat))
    (h : readPackedBlock dec? block = .ok items) :
    ∃ vlen, 4 + vlen ≤ block.length ∧
      readLE32 block = crc32 ((block.drop 4).take vlen) := by
  rcases block with _ | ⟨b0, _ | ⟨b1, _ | ⟨b2, _ | ⟨b3, rest⟩⟩⟩⟩
  · simp [readPackedBlock, bpReadLE32, esSet] at h
  · simp [readPackedBlock, bpReadLE32, esSet] at h
  · simp [readPackedBlock, bpReadLE32, esSet] at h
  · simp [readPackedBlock, bpReadLE32, esSet] at h
  · simp only [readPackedBlock] at h
    have hle : bpReadLE32 ⟨b0 :: b1 :: b2 :: b3 :: rest, none⟩ =
        (b0 + 256 * (b1 + 256 * (b2 + 256 * b3)), ⟨rest, none⟩) := rfl
    rw [hle] at h
    simp only at h
    rw [if_neg (by simp)] at h
    by_cases h2 : ((bpReadUVarint ⟨rest, none⟩).1 == 0 ||
        decide ((bpReadUVarint ⟨rest, none⟩).1 ≥ (b0 :: b1 :: b2 :: b3 :: rest).length)) = true
    · rw [if_pos h2] at h
      simp at h
    · rw [if_neg h2] at h
      by_cases h3 : (crc32 (rest.take (rest.length -
          (readSizes (bpReadUVarint ⟨rest, none⟩).1 (bpReadUVarint ⟨rest, none⟩).2).2.data.length)) !=
          b0 + 256 * (b1 + 256 * (b2 + 256 * b3))) = true
      · rw [if_pos h3] at h
        simp at h
      · have hcrc : crc32 (rest.take (rest.length -
            (readSizes (bpReadUVarint ⟨rest, none⟩).1 (bpReadUVarint ⟨rest, none⟩).2).2.data.length)) =
            b0 + 256 * (b1 + 256 * (b2 + 256 * b3)) := by
          simpa using h3
        refine ⟨rest.length -
          (readSizes (bpReadUVarint ⟨rest, none⟩).1 (bpReadUVarint ⟨rest, none⟩).2).2.data.length,
          ?_, ?_⟩
        · simp only [List.length_cons]
          omega
        · show readLE32 (b0 :: b1 :: b2 :: b3 :: rest) = _
          have hr : readLE32 (b0 :: b1 :: b2 :: b3 :: rest) =
              b0 + 256 * (b1 + 256 * (b2 + 256 * b3)) := by
            simp [readLE32]
          rw [hr, ← hcrc]
          rfl


end Recordio
namespace Recordio

/-! ## Claims -/

/-- Claim C10: for every 64-bit unsigned value `v`, decoding the bytes that
`PackedHeaderBuilder::AppendUVarint` produced for `v` with
`BinaryParser::ReadUVarint` yields `v` again, consumes exactly the produced
bytes, and records no error. -/
theorem claim_c10 (v : Nat) (rest : List Nat) (h : v < 2 ^ 64) :
    bpReadUVarint ⟨appendUVarint v ++ rest, none⟩ = (v, ⟨rest, none⟩) :=
  bpReadUVarint_append v rest none h

/-- Witness for C10 at `v = 300`. -/
theorem claim_c10_witness :
    bpReadUVarint ⟨appendUVarint 300 ++ [7, 8], none⟩ = (300, ⟨[7, 8], none⟩) :=
  claim_c10 300 [7, 8] (by norm_num)

/-- Claim C5, counterexample: on the truncated input `[0x80]` (a continuation
byte with no terminating byte) `BinaryParser::ReadUVarint` silently returns
the partial value 0 with no error recorded, contradicting the claim that
exhausted input is reported as an error. -/
theorem claim_c5_counterexample :
    bpReadUVarint ⟨[0x80], none⟩ = (0, ⟨[], none⟩) := by decide

/-- Claim C5 as amended: the decoder records the error "Failed to read
uvarint" when the varint is too long (terminating byte as the 11th byte, or
as the 10th byte with value above 1), returning 0 and leaving the
terminating byte unconsumed; but when the input is exhausted before a
terminating byte it reports no error and silently returns the partial value
accumulated from the continuation bytes seen so far (each contributing its
low 7 bits at the running shift, modulo 2^64), consuming the whole input and
leaving the error state unchanged. -/
theorem claim_c5_amended :
    (∀ (pre : List Nat) (b : Nat) (rest : List Nat) (e : ErrSt),
      (∀ x ∈ pre, 128 ≤ x ∧ x < 256) → b < 128 →
      (pre.length > 9 ∨ (pre.length = 9 ∧ b > 1)) →
      bpReadUVarint ⟨pre ++ b :: rest, e⟩ =
        (0, ⟨b :: rest, esSet e "Failed to read uvarint"⟩)) ∧
    (∀ (bytes : List Nat) (e : ErrSt), (∀ x ∈ bytes, 128 ≤ x ∧ x < 256) →
      bpReadUVarint ⟨bytes, e⟩ =
        ((bytes.foldl
          (fun p b => (p.1 ||| (((b &&& 127) <<< p.2) % 2 ^ 64), p.2 + 7))
          (0, 0)).1, ⟨[], e⟩)) := by
  constructor
  · intro pre b rest e hpre hb hcond
    have h := readUVarintGo_too_long pre b rest 0 0 0 e
      (fun x hx => (hpre x hx).1) hb (by simpa using hcond)
    show ((readUVarintGo (pre ++ b :: rest) 0 0 0 e).1,
        (⟨(readUVarintGo (pre ++ b :: rest) 0 0 0 e).2.1,
          (readUVarintGo (pre ++ b :: rest) 0 0 0 e).2.2⟩ : BP)) = _
    rw [h]
  · intro bytes e hall
    have h := readUVarintGo_cont_foldl bytes 0 0 0 e (fun x hx => (hall x hx).1)
    show ((readUVarintGo bytes 0 0 0 e).1,
        (⟨(readUVarintGo bytes 0 0 0 e).2.1,
          (readUVarintGo bytes 0 0 0 e).2.2⟩ : BP)) = _
    rw [h]

/-- Witness for the amended C5: a varint of ten continuation bytes and a
terminating byte is rejected with the error recorded and 0 returned; an
input of two continuation bytes and nothing else yields no error and the
accumulated partial value. -/
theorem claim_c5_amended_witness :
    bpReadUVarint ⟨List.replicate 10 0x80 ++ 0 :: [7], none⟩ =
      (0, ⟨0 :: [7], esSet none "Failed to read uvarint"⟩) ∧
    bpReadUVarint ⟨[0x81, 0x82], none⟩ =
      ((([0x81, 0x82] : List Nat).foldl
        (fun p b => (p.1 ||| (((b &&& 127) <<< p.2) % 2 ^ 64), p.2 + 7))
        (0, 0)).1, ⟨[], none⟩) :=
  ⟨claim_c5_amended.1 (List.replicate 10 0x80) 0 [7] none (by decide) (by decide)
    (by decide),
   claim_c5_amended.2 [0x81, 0x82] none (by decide)⟩

/-- Claim C7: the claim is right and the code is wrong.  When the underlying
source's `Read` returns a non-empty error, `ChunkReader::ReadChunk`
(chunk.cc lines 110-113) prints the error to stdout and returns false without
recording anything, so `Scan` returns false with the stored error still
empty; the error accessor does not observe the failure. -/
theorem claim_c7_code_behavior :
    ∀ (msg : String) (d : List Nat) (rest : List ReadRes),
      crScan ((some msg, d) :: rest) none = (false, none, [], rest) := by
  intro msg d rest
  unfold crScan
  rw [if_neg (by simp)]
  rw [crScanGo]
  have hrc : crReadChunk (some msg, d) none = (none, none) := by
    unfold crReadChunk
    rw [if_pos (by simp)]
  rw [hrc]

/-- Claim C3: the claim is right and the code is wrong.  `FindEntry`
(registry.cc line 56) matches the name-args regex against the still-empty
local variable `name` instead of against `config`, so every config of the
form "name args" fails with `Failed to extract transformer name from ""`,
even though the regex itself would split the config as documented; a
single-token config still resolves. -/
theorem claim_c3_code_behavior :
    findEntry [['f', 'l', 'a', 't', 'e']] ['f', 'l', 'a', 't', 'e', ' ', '4'] =
      .error "Failed to extract transformer name from \"\"" ∧
    regexNameArgs ['f', 'l', 'a', 't', 'e', ' ', '4'] =
      some (['f', 'l', 'a', 't', 'e'], ['4']) ∧
    findEntry [['f', 'l', 'a', 't', 'e']] ['f', 'l', 'a', 't', 'e'] =
      .ok (['f', 'l', 'a', 't', 'e'], []) := by
  refine ⟨?_, ?_, ?_⟩ <;> rfl

/-- Claim C1, counterexample: the packed writer's block for the two items
`[1]` and `[2]` is accepted by the packed reader, yet its leading 4-byte
checksum is not the CRC-32 of everything that follows it: it covers only the
`n_items` and item-size varints, not the item bytes. -/
theorem claim_c1_counterexample :
    readPackedBlock none (packedListBytes id [[1], [2]]) = .ok [[1], [2]] ∧
    (packedListBytes id [[1], [2]]).take 4 ≠
      leU32 (crc32 ((packedListBytes id [[1], [2]]).drop 4)) ∧
    (packedListBytes id [[1], [2]]).take 4 =
      leU32 (crc32 (varintRegion [[1], [2]])) := by
  refine ⟨by decide, by decide, by decide⟩

/-- Claim C1 as amended: the leading 4-byte checksum of a packed-item list is
the CRC-32 of only the `n_items` varint and the item-size varints (in
particular it does not depend on the item payload bytes), and the reader
verifies a CRC over exactly that varint region of the untransformed block,
before the decode transform is applied to the remaining bytes. -/
theorem claim_c1_amended :
    (∀ (enc : List Nat → List Nat) (items : List (List Nat)),
      (packedListBytes enc items).take 4 = leU32 (crc32 (varintRegion items))) ∧
    (∀ (enc₁ enc₂ : List Nat → List Nat) (items₁ items₂ : List (List Nat)),
      items₁.map List.length = items₂.map List.length →
      (packedListBytes enc₁ items₁).take 4 = (packedListBytes enc₂ items₂).take 4) ∧
    (∀ (dec? : Option (List Nat → List Nat)) (block : List Nat)
        (items : List (List Nat)),
      readPackedBlock dec? block = .ok items →
      ∃ vlen, 4 + vlen ≤ block.length ∧
        readLE32 block = crc32 ((block.drop 4).take vlen)) := by
  have htake : ∀ (enc : List Nat → List Nat) (items : List (List Nat)),
      (packedListBytes enc items).take 4 = leU32 (crc32 (varintRegion items)) := by
    intro enc items
    unfold packedListBytes packedHeaderBytes
    rw [List.append_assoc, List.take_append_of_le_length (by rw [leU32_length]),
      List.take_of_length_le (by rw [leU32_length])]
  refine ⟨htake, ?_, readPackedBlock_crcRegion⟩
  intro enc1 enc2 items1 items2 hlen
  rw [htake, htake]
  have hvr : varintRegion items1 = varintRegion items2 := by
    unfold varintRegion sizesBytes
    have hc : items1.length = items2.length := by
      have := congrArg List.length hlen
      simpa using this
    rw [hc]
    congr 1
    have h1 : items1.map (fun r => appendUVarint (r.length % 2 ^ 32)) =
        (items1.map List.length).map (fun n => appendUVarint (n % 2 ^ 32)) := by
      rw [List.map_map]
      rfl
    have h2 : items2.map (fun r => appendUVarint (r.length % 2 ^ 32)) =
        (items2.map List.length).map (fun n => appendUVarint (n % 2 ^ 32)) := by
      rw [List.map_map]
      rfl
    rw [h1, h2, hlen]
  rw [hvr]

/-- Witness for the amended C1: a concrete accepted block whose stored
checksum is the CRC-32 of its varint region. -/
theorem claim_c1_amended_witness :
    ∃ vlen, 4 + vlen ≤ (packedListBytes id [[5]]).length ∧
      readLE32 (packedListBytes id [[5]]) =
        crc32 (((packedListBytes id [[5]]).drop 4).take vlen) :=
  claim_c1_amended.2.2 none (packedListBytes id [[5]]) [[5]] (by decide)

/-- Claim C4, counterexample: a packed writer with the default limits that
is closed without a single `Write` still writes a 25-byte block to the sink
(`Close` calls `Flush` unconditionally, writer.cc lines 274-279), so `Close`
does not flush only non-empty pending blocks. -/
theorem claim_c4_counterexample :
    packedFileBytes id 16384 16777216 [] ≠ [] ∧
    (packedFileBytes id 16384 16777216 []).length = 25 := by
  refine ⟨by decide, by decide⟩

/-- Claim C4 as amended: `Close` always flushes the pending block, even when
no item is pending; with no `Write` at all the emitted block is a 25-byte
v1 packed block whose packed-item list has `n_items = 0`. -/
theorem claim_c4_amended :
    (∀ (enc : List Nat → List Nat) (mI mB : Int) (R : List (List Nat)),
      (pwClose (pwWriteAll mI mB R)).flushed =
        (pwWriteAll mI mB R).flushed ++ [(pwWriteAll mI mB R).pending] ∧
      packedFileBytes enc mI mB R ≠ []) ∧
    packedFileBytes id 16384 16777216 [] =
      v1BlockBytes magicPacked (packedHeaderBytes []) [] := by
  constructor
  · intro enc mI mB R
    refine ⟨rfl, ?_⟩
    intro hcon
    have h0 : (packedFileBytes enc mI mB R).length = 0 := by
      rw [hcon]
      rfl
    have hfl : (pwClose (pwWriteAll mI mB R)).flushed =
        (pwWriteAll mI mB R).flushed ++ [(pwWriteAll mI mB R).pending] := rfl
    unfold packedFileBytes at h0
    rw [hfl] at h0
    simp only [List.map_append, List.flatten_append, List.length_append,
      List.map_cons, List.map_nil, List.flatten_cons, List.flatten_nil,
      List.append_nil] at h0
    have hge := packedBlockBytes_length_ge enc (pwWriteAll mI mB R).pending
    omega
  · decide


/-- Claim C2, counterexample: for the empty record sequence in packed mode,
writing with the v1 packed writer and `Close` and then reading back yields no
records but a non-empty error (`Close` emits a block with `n_items = 0`,
which `PackedReaderImpl::ReadBlock` rejects), not the claimed
no-error end of scan. -/
theorem claim_c2_counterexample :
    readPackedAll none (packedFileBytes id 16384 16777216 []) =
      ([], some "invalid block header (n_items)") := by decide

/-- Claim C2 as amended: with matching encode/decode transformers (a missing
transformer being the identity) and records that fit the writer's bounds,
writing then reading is the identity: in unpacked mode for every record
sequence, and in packed mode for every non-empty record sequence (for the
empty sequence the packed writer's `Close` emits an empty block that the
reader rejects).  The bounds keep every size within the `int` casts and the
reader's 2^29 block-size limit. -/
theorem claim_c2_amended (enc : List Nat → List Nat)
    (dec? : Option (List Nat → List Nat)) (mI mB EB : Nat)
    (R : List (List Nat))
    (hI : 1 ≤ mI) (hI2 : mI < 2 ^ 32 - 1) (hB : mB ≤ 2 ^ 28)
    (henc : ∀ x : List Nat, x.length ≤ mB → (enc x).length ≤ EB)
    (hbudget : 9 + 5 * mI + EB ≤ 2 ^ 29)
    (hmatch : ∀ x : List Nat, applyDec dec? (enc x) = x)
    (hall : ∀ r ∈ R, r.length ≤ mB)
    (hencR : ∀ r ∈ R, (enc r).length ≤ 2 ^ 29) :
    readUnpackedAll dec? (unpackedFileBytes enc R) = (R, none) ∧
    (R ≠ [] → readPackedAll dec? (packedFileBytes enc (mI : Int) (mB : Int) R) =
      (R, none)) := by
  constructor
  · exact readUnpackedAll_file enc dec? R (fun r hr => ⟨hmatch r, hencR r hr⟩)
  · intro hne
    exact roundtrip_packed enc dec? mI mB EB R hI hI2 hB henc hbudget hmatch hall hne

/-- Witness for the amended C2: identity transformer, default-like limits,
and three records (one of them empty) survive both round trips. -/
theorem claim_c2_amended_witness :
    readUnpackedAll none (unpackedFileBytes id [[1, 2], [], [3]]) =
      ([[1, 2], [], [3]], none) ∧
    ([[1, 2], [], [3]] ≠ ([] : List (List Nat)) →
      readPackedAll none (packedFileBytes id (16384 : Nat) ((2 ^ 24 : Nat) : Int)
        [[1, 2], [], [3]]) = ([[1, 2], [], [3]], none)) :=
  claim_c2_amended id none 16384 (2 ^ 24) (2 ^ 24) [[1, 2], [], [3]]
    (by norm_num) (by norm_num) (by norm_num)
    (fun x hx => by simpa using hx)
    (by norm_num)
    (fun x => rfl)
    (by intro r hr; fin_cases hr <;> norm_num)
    (by intro r hr; fin_cases hr <;> norm_num)

/-- Claim C6, counterexample: the byte string `[0x00]`, a bare unsigned
varint `n_entries = 0` as the claimed grammar prescribes, is rejected by
`DecodeHeader` with an error (the code reads a type-tagged value and `0x00`
is not a valid type tag), while a decoder for the claimed bare-varint
grammar accepts it with zero entries. -/
theorem claim_c6_counterexample :
    (decodeHeader [0]).1 = [] ∧
    (decodeHeader [0]).2 = some "Invalid value type" ∧
    decodeHeaderClaimed [0] = ([], none) := by
  refine ⟨by decide, by decide, by decide⟩

/-- Claim C6 as amended: the header item begins with a UINT-tagged value
(type byte 3 followed by an unsigned varint) for `n_entries`, not a bare
varint, followed by exactly `n_entries` pairs of a STRING-tagged key (whose
length is itself a nested UINT-tagged value) and a tagged value; the decoder
accepts this grammar and returns the entries in order with no error. -/
theorem claim_c6_amended (entries : List (List Nat × HVal))
    (hn : entries.length < 2 ^ 31)
    (hwf : ∀ kv ∈ entries, kv.1.length < 2 ^ 31 ∧ hvalWF kv.2) :
    decodeHeader (encHeader entries) =
      (entries.map (fun kv => (kv.1, hvOf kv.2)), none) :=
  decodeHeader_enc entries hn hwf

/-- Witness for the amended C6 with one entry of each value type. -/
theorem claim_c6_amended_witness :
    decodeHeader (encHeader [([107], .vuint 12345), ([108], .vint (-7)),
        ([109], .vbool true), ([], .vstr [65, 66])]) =
      ([([107], hvOf (.vuint 12345)), ([108], hvOf (.vint (-7))),
        ([109], hvOf (.vbool true)), ([], hvOf (.vstr [65, 66]))], none) :=
  claim_c6_amended [([107], .vuint 12345), ([108], .vint (-7)),
      ([109], .vbool true), ([], .vstr [65, 66])]
    (by norm_num)
    (by
      intro kv hk
      fin_cases hk <;> exact ⟨by norm_num, by simp [hvalWF]⟩)


/-- Claim C8 (confirmed): the chunk reader's `Scan` returns `true` only when
every chunk of the block was read as exactly 32768 bytes carrying the first
chunk's magic and total, an index equal to the number of chunks seen so far,
a payload size at most 32740, and a checksum equal to the CRC-32 of bytes
[12, 28+size) of the chunk; on the first violated condition it returns
`false` with the corresponding error recorded (invalid size, checksum
mismatch, wrong index, magic changed, wrong total). -/
theorem claim_c8 :
    (∀ (src : List ReadRes) (e' : ErrSt) (iov' : List (List Nat))
        (rem : List ReadRes),
      crScan src none = (true, e', iov', rem) →
      e' = none ∧ ∃ ds : List (List Nat), ds ≠ [] ∧
        src = ds.map (fun d => ((none : Option String), d)) ++ rem ∧
        (∀ k, (hk : k < ds.length) →
          chunkGood (cMagic (ds.get ⟨0, by omega⟩))
            (cTotal (ds.get ⟨0, by omega⟩)) k (ds.get ⟨k, hk⟩))) ∧
    (∀ (d : List Nat) (rest : List ReadRes),
      d.length = 32768 → cSize d > 32740 →
      crScan (((none : Option String), d) :: rest) none =
        (false, some "Invalid chunk size", [], rest)) ∧
    (∀ (d : List Nat) (rest : List ReadRes),
      d.length = 32768 → cSize d ≤ 32740 →
      cCsum d ≠ crc32 ((d.drop 12).take (16 + cSize d)) →
      crScan (((none : Option String), d) :: rest) none =
        (false, some "Chunk checksum mismatch", [], rest)) ∧
    (∀ (d : List Nat) (rest : List ReadRes),
      d.length = 32768 → cSize d ≤ 32740 →
      cCsum d = crc32 ((d.drop 12).take (16 + cSize d)) → cIndex d ≠ 0 →
      crScan (((none : Option String), d) :: rest) none =
        (false, some "Wrong chunk index", [], rest)) ∧
    (∀ (d1 d2 : List Nat) (rest : List ReadRes),
      d1.length = 32768 → cSize d1 ≤ 32740 →
      cCsum d1 = crc32 ((d1.drop 12).take (16 + cSize d1)) →
      cIndex d1 = 0 → cIndex d1 + 1 ≠ cTotal d1 →
      d2.length = 32768 → cSize d2 ≤ 32740 →
      cCsum d2 = crc32 ((d2.drop 12).take (16 + cSize d2)) →
      cMagic d2 ≠ cMagic d1 →
      crScan (((none : Option String), d1) ::
          ((none : Option String), d2) :: rest) none =
        (false, some "Magic number changed in the middle of a chunk sequence",
          [(d1.drop 28).take (cSize d1)], rest)) ∧
    (∀ (d1 d2 : List Nat) (rest : List ReadRes),
      d1.length = 32768 → cSize d1 ≤ 32740 →
      cCsum d1 = crc32 ((d1.drop 12).take (16 + cSize d1)) →
      cIndex d1 = 0 → cIndex d1 + 1 ≠ cTotal d1 →
      d2.length = 32768 → cSize d2 ≤ 32740 →
      cCsum d2 = crc32 ((d2.drop 12).take (16 + cSize d2)) →
      cMagic d2 = cMagic d1 → cIndex d2 = 1 → cTotal d2 ≠ cTotal d1 →
      crScan (((none : Option String), d1) ::
          ((none : Option String), d2) :: rest) none =
        (false, some "Wrong total chunk header",
          [(d1.drop 28).take (cSize d1)], rest)) :=
  ⟨crScan_sound, crScan_size_err, crScan_crc_err, crScan_index_err,
    crScan_magic_err, crScan_total_err⟩

/-- Witness for C8: a single full-size chunk whose size field holds 65535
(over the 32740 payload limit) makes `Scan` fail with the size error. -/
theorem claim_c8_witness :
    crScan [((none : Option String),
        List.replicate 16 0 ++ 255 :: 255 :: 0 :: 0 :: List.replicate 32748 0)]
      none = (false, some "Invalid chunk size", [], []) :=
  claim_c8.2.1
    (List.replicate 16 0 ++ 255 :: 255 :: 0 :: 0 :: List.replicate 32748 0) []
    (by
      rw [List.length_append, List.length_replicate, List.length_cons,
        List.length_cons, List.length_cons, List.length_cons,
        List.length_replicate])
    (by
      have hd : (List.replicate 16 (0 : Nat) ++ 255 :: 255 :: 0 :: 0 ::
          List.replicate 32748 0).drop 16 =
          255 :: 255 :: 0 :: 0 :: List.replicate 32748 (0 : Nat) :=
        List.drop_left' (by rw [List.length_replicate])
      have hv : cSize (List.replicate 16 (0 : Nat) ++ 255 :: 255 :: 0 :: 0 ::
          List.replicate 32748 0) = 65535 := by
        unfold cSize
        rw [hd]
        rfl
      rw [gt_iff_lt, hv]
      norm_num)

/-- Claim C9, counterexample: a packed writer that is closed without any
successful `Write` still emits one block, and that block holds zero items,
violating the claimed lower bound of one item per emitted block. -/
theorem claim_c9_counterexample :
    (pwClose (pwWriteAll (16384 : Int) (16777216 : Int) [])).flushed = [[]] ∧
    ¬ pwGood 16384 16777216 ([] : List (List Nat)) := by
  refine ⟨rfl, ?_⟩
  intro h
  simp [pwGood] at h

/-- Claim C9 as amended: every block flushed by `Write` holds between one and
`max_packed_items` items and at most `max_packed_bytes` pre-transform item
bytes; the pending block kept for `Close` obeys the same upper bounds and is
non-empty whenever at least one record was written (after zero writes,
`Close` still emits one block with zero items); a `Write` whose single item
exceeds `max_packed_bytes` fails with the item-size error and leaves the
flushed and pending groups unchanged; an item of exactly `max_packed_bytes`
is accepted with no error. -/
theorem claim_c9_amended (mI mB : Nat) (R : List (List Nat))
    (hI : 1 ≤ mI) (hI2 : mI < 2 ^ 32 - 1) (hB : mB ≤ 2 ^ 28)
    (hall : ∀ r ∈ R, r.length ≤ mB) :
    (∀ g ∈ (pwWriteAll (mI : Int) (mB : Int) R).flushed, pwGood mI mB g) ∧
    (pwWriteAll (mI : Int) (mB : Int) R).pending.length ≤ mI ∧
    (pwWriteAll (mI : Int) (mB : Int) R).pending.flatten.length ≤ mB ∧
    (R ≠ [] → (pwWriteAll (mI : Int) (mB : Int) R).pending ≠ []) ∧
    (∀ (s : PWState) (item : List Nat),
      mB < item.length → item.length < 2 ^ 31 →
      pwWrite (mI : Int) (mB : Int) s item =
        ({ s with err := esSet s.err "Item size exceeds block size" }, false)) ∧
    (∀ (s : PWState) (item : List Nat),
      s.pending.length ≤ mI → s.pending.flatten.length ≤ mB →
      item.length = mB →
      (pwWrite (mI : Int) (mB : Int) s item).2 = true ∧
      (pwWrite (mI : Int) (mB : Int) s item).1.err = s.err) := by
  obtain ⟨_, hp1, hp2, _, hgood, hpne⟩ := pwWriteAll_spec mI mB hI hI2 hB R hall
  refine ⟨hgood, hp1, hp2, hpne, ?_, ?_⟩
  · intro s item h1 h2
    have hc : asInt32 item.length > (mB : Int) := by
      rw [asInt32_of_lt _ h2]
      exact_mod_cast h1
    unfold pwWrite
    rw [if_pos hc]
  · intro s item h1 h2 h3
    have h := pwWrite_ok mI mB hI hI2 hB s item h1 h2 (le_of_eq h3)
    exact ⟨h.1, h.2.1⟩

/-- Witness for the amended C9 at `max_items = 2`, `max_bytes = 4` over three
records. -/
theorem claim_c9_amended_witness :
    (∀ g ∈ (pwWriteAll ((2 : Nat) : Int) ((4 : Nat) : Int)
        [[1], [2, 3], [4]]).flushed, pwGood 2 4 g) ∧
    (pwWriteAll ((2 : Nat) : Int) ((4 : Nat) : Int)
        [[1], [2, 3], [4]]).pending.length ≤ 2 ∧
    (pwWriteAll ((2 : Nat) : Int) ((4 : Nat) : Int)
        [[1], [2, 3], [4]]).pending.flatten.length ≤ 4 ∧
    ([[1], [2, 3], [4]] ≠ ([] : List (List Nat)) →
      (pwWriteAll ((2 : Nat) : Int) ((4 : Nat) : Int)
        [[1], [2, 3], [4]]).pending ≠ []) ∧
    (∀ (s : PWState) (item : List Nat),
      4 < item.length → item.length < 2 ^ 31 →
      pwWrite ((2 : Nat) : Int) ((4 : Nat) : Int) s item =
        ({ s with err := esSet s.err "Item size exceeds block size" }, false)) ∧
    (∀ (s : PWState) (item : List Nat),
      s.pending.length ≤ 2 → s.pending.flatten.length ≤ 4 →
      item.length = 4 →
      (pwWrite ((2 : Nat) : Int) ((4 : Nat) : Int) s item).2 = true ∧
      (pwWrite ((2 : Nat) : Int) ((4 : Nat) : Int) s item).1.err = s.err) :=
  claim_c9_amended 2 4 [[1], [2, 3], [4]]
    (by norm_num) (by norm_num) (by norm_num)
    (by intro r hr; fin_cases hr <;> norm_num)


end Recordio
